import Mathlib

/-!
Verification of the HTML-aware Slovak→Czech translation pipeline
(`article_translator.py`, class `SlovakCzechTranslator`).

The Python methods are embedded as executable functions over `List Char`.
Each `re.sub` call of the source is modelled by a dedicated left-to-right
scanner with the same leftmost, non-overlapping, resume-after-match
semantics.  Character classes such as `\w`, `isalpha`, `isupper` are
modelled over the alphabet actually used by this code base: ASCII plus the
Czech/Slovak accented letters that occur in the source's tables and
regexes (Python's classes cover more of Unicode; every string this
repository manipulates lives in this alphabet).
-/

/-- Convert a string literal to the character list the model works on. -/

def lc (s : String) : List Char := s.data

/-- Tail-recursive character count, the model of Python's `len`.  It is
used both for the source's length thresholds and as the fuel of the
scanners, so that evaluation inside the kernel streams with constant
stack depth. -/

def strLenGo : Nat → List Char → Nat
  | acc, [] => acc
  | acc, _ :: rest => strLenGo (acc + 1) rest

def strLen (s : List Char) : Nat := strLenGo 0 s

/-- The 15 lowercase accented letters of the source's regex classes. -/

def czechLowerList : List Char :=
  ['á', 'č', 'ď', 'é', 'ě', 'í', 'ň', 'ó', 'ř', 'š', 'ť', 'ú', 'ů', 'ý', 'ž']

/-- The 15 uppercase accented letters of the source's regex classes. -/

def czechUpperList : List Char :=
  ['Á', 'Č', 'Ď', 'É', 'Ě', 'Í', 'Ň', 'Ó', 'Ř', 'Š', 'Ť', 'Ú', 'Ů', 'Ý', 'Ž']

def isAsciiLower (c : Char) : Bool := 'a' ≤ c && c ≤ 'z'

def isAsciiUpper (c : Char) : Bool := 'A' ≤ c && c ≤ 'Z'

def isDigitCh (c : Char) : Bool := '0' ≤ c && c ≤ '9'

/-- Model of the regex class `[a-záčďéěíňóřšťúůýž]`. -/

def isLowerLet (c : Char) : Bool := isAsciiLower c || czechLowerList.contains c

/-- Model of the regex class `[A-ZÁČĎÉĚÍŇÓŘŠŤÚŮÝŽ]`. -/

def isUpperLet (c : Char) : Bool := isAsciiUpper c || czechUpperList.contains c

/-- Model of Python's `str.isalpha` over the working alphabet. -/

def pyIsAlpha (c : Char) : Bool := isLowerLet c || isUpperLet c

/-- Model of the regex class `\w` (with `re.UNICODE`) over the alphabet. -/

def isWordCh (c : Char) : Bool :=
  isAsciiLower c || isAsciiUpper c || isDigitCh c || c = '_' ||
  czechLowerList.contains c || czechUpperList.contains c

/-- Model of the regex class `\s`: Python whitespace. -/

def isWs (c : Char) : Bool :=
  c = ' ' || c = '\t' || c = '\n' || c = '\r' || c = '\x0b' || c = '\x0c'

/-- The regex range `À-ſ` used in `restore_html_tags` and
`post_translation_spacing_fix`. -/

def inLatinExt (c : Char) : Bool := 0xC0 ≤ c.toNat && c.toNat ≤ 0x17F

/-- Lower→upper table for `str.upper` on the working alphabet. -/

def upPairs : List (Char × Char) :=
  [('a', 'A'), ('b', 'B'), ('c', 'C'), ('d', 'D'), ('e', 'E'), ('f', 'F'),
   ('g', 'G'), ('h', 'H'), ('i', 'I'), ('j', 'J'), ('k', 'K'), ('l', 'L'),
   ('m', 'M'), ('n', 'N'), ('o', 'O'), ('p', 'P'), ('q', 'Q'), ('r', 'R'),
   ('s', 'S'), ('t', 'T'), ('u', 'U'), ('v', 'V'), ('w', 'W'), ('x', 'X'),
   ('y', 'Y'), ('z', 'Z'),
   ('á', 'Á'), ('č', 'Č'), ('ď', 'Ď'), ('é', 'É'), ('ě', 'Ě'), ('í', 'Í'),
   ('ň', 'Ň'), ('ó', 'Ó'), ('ř', 'Ř'), ('š', 'Š'), ('ť', 'Ť'), ('ú', 'Ú'),
   ('ů', 'Ů'), ('ý', 'Ý'), ('ž', 'Ž')]

/-- Model of Python's `str.upper` for one character. -/

def pyToUpper (c : Char) : Char :=
  match upPairs.find? (fun p => p.1 = c) with
  | some p => p.2
  | none => c

/-- Model of Python's `str.lower` for one character. -/

def pyToLower (c : Char) : Char :=
  match upPairs.find? (fun p => p.2 = c) with
  | some p => p.1
  | none => c

/-- Case-insensitive character comparison, as under `re.IGNORECASE`. -/

def ciEq (a b : Char) : Bool := pyToLower a = pyToLower b

/-- Literal substring replacement, Python's `str.replace` (and `re.sub`
with a literal pattern): leftmost, non-overlapping, resume after the
replaced occurrence.  All scanners are written with structural recursion
on a fuel argument (initialised to the input length, which bounds the
number of scan steps) so that they reduce inside the kernel; the
fuel-exhausted case is unreachable whenever `s.length ≤ fuel`. -/

def replaceLGo (pat rep : List Char) : Nat → List Char → List Char
  | 0, s => s
  | _ + 1, [] => []
  | fuel + 1, c :: rest =>
    if pat ≠ [] ∧ pat.isPrefixOf (c :: rest) then
      rep ++ replaceLGo pat rep fuel ((c :: rest).drop pat.length)
    else
      c :: replaceLGo pat rep fuel rest

def replaceL (pat rep s : List Char) : List Char :=
  replaceLGo pat rep (strLen s) s

/-- Collapse runs of two or more space characters to a single space:
`re.sub(r' {2,}', ' ', s)`. -/

def collapseSpacesGo : Nat → List Char → List Char
  | 0, s => s
  | _ + 1, [] => []
  | _ + 1, [c] => [c]
  | fuel + 1, c :: d :: rest =>
    if c = ' ' ∧ d = ' ' then
      ' ' :: collapseSpacesGo fuel (rest.dropWhile (fun x => x = ' '))
    else
      c :: collapseSpacesGo fuel (d :: rest)

def collapseSpaces (s : List Char) : List Char := collapseSpacesGo (strLen s) s

/-- Collapse runs of two or more whitespace characters to a single space:
`re.sub(r'\s{2,}', ' ', s)`. -/

def collapseWsGo : Nat → List Char → List Char
  | 0, s => s
  | _ + 1, [] => []
  | _ + 1, [c] => [c]
  | fuel + 1, c :: d :: rest =>
    if isWs c ∧ isWs d then
      ' ' :: collapseWsGo fuel (rest.dropWhile (fun x => isWs x))
    else
      c :: collapseWsGo fuel (d :: rest)

def collapseWs (s : List Char) : List Char := collapseWsGo (strLen s) s

/-- Inline-tag names, in the source's alternation order
`strong|em|b|i|u|span`.  The names are pairwise prefix-free, so
alternation order does not affect which name matches. -/

def tagNames : List (List Char) :=
  [lc "strong", lc "em", lc "b", lc "i", lc "u", lc "span"]

/-- Consume `[^>]*>`: characters up to and including the first `'>'`.
Returns `(consumed, rest)`; `none` when no `'>'` occurs. -/

def takeToGt : List Char → Option (List Char × List Char)
  | [] => none
  | c :: rest =>
    if c = '>' then some ([c], rest)
    else
      match takeToGt rest with
      | some p => some (c :: p.1, p.2)
      | none => none

/-- Find the first alternation name that is a prefix of `s`. -/

def findName (names : List (List Char)) (s : List Char) :
    Option (List Char × List Char) :=
  match names with
  | [] => none
  | n :: ns =>
    if n.isPrefixOf s then some (n, s.drop n.length) else findName ns s

/-- Match the source's tag pattern `</?(?:strong|em|b|i|u|span)[^>]*>` at
the head of `s`.  Returns `(matchedText, rest)`. -/

def matchTag : List Char → Option (List Char × List Char)
  | '<' :: '/' :: rest =>
    (match findName tagNames rest with
     | some (n, rest3) =>
       match takeToGt rest3 with
       | some (body, rest4) => some ('<' :: '/' :: (n ++ body), rest4)
       | none => none
     | none => none)
  | '<' :: rest =>
    (match findName tagNames rest with
     | some (n, rest3) =>
       match takeToGt rest3 with
       | some (body, rest4) => some ('<' :: (n ++ body), rest4)
       | none => none
     | none => none)
  | _ => none

/-- Match the opening-tag pattern `<NAME[^>]*>` (no slash) for the given
name list at the head of `s`. -/

def matchOpen (names : List (List Char)) (s : List Char) :
    Option (List Char × List Char) :=
  match s with
  | '<' :: rest =>
    (match findName names rest with
     | some (n, rest3) =>
       match takeToGt rest3 with
       | some (body, rest4) => some ('<' :: (n ++ body), rest4)
       | none => none
     | none => none)
  | _ => none

/-- Scanner for `(CLS)(<NAME[^>]*>)` → `\1 \2`: a class character directly
followed by an opening tag gets a single separating space; the match is
consumed and scanning resumes after the tag. -/

def fixBeforeOpenGo (cls : Char → Bool) (names : List (List Char)) :
    Nat → List Char → List Char
  | 0, s => s
  | _ + 1, [] => []
  | fuel + 1, c :: rest =>
    if cls c then
      match matchOpen names rest with
      | some (tag, rest2) =>
        c :: ' ' :: (tag ++ fixBeforeOpenGo cls names fuel rest2)
      | none => c :: fixBeforeOpenGo cls names fuel rest
    else c :: fixBeforeOpenGo cls names fuel rest

def fixBeforeOpen (cls : Char → Bool) (names : List (List Char))
    (s : List Char) : List Char :=
  fixBeforeOpenGo cls names (strLen s) s

/-- Does `s` start with the literal closing tag `</NAME>` for one of the
names?  Returns the tag text and the rest. -/

def closeAt (names : List (List Char)) (s : List Char) :
    Option (List Char × List Char) :=
  match s with
  | '<' :: '/' :: rest =>
    (match findName names rest with
     | some (n, rest3) =>
       match rest3 with
       | '>' :: rest4 => some ('<' :: '/' :: (n ++ ['>']), rest4)
       | _ => none
     | none => none)
  | _ => none

/-- Scanner for `(</NAME>)(CLS)` → `\1 \2`: a closing tag directly
followed by a class character gets a single separating space; both are
consumed by the match. -/

def fixAfterCloseGo (names : List (List Char)) (cls : Char → Bool) :
    Nat → List Char → List Char
  | 0, s => s
  | _ + 1, [] => []
  | fuel + 1, c :: rest =>
    match closeAt names (c :: rest) with
    | some (tag, d :: rest2) =>
      if cls d then tag ++ ' ' :: d :: fixAfterCloseGo names cls fuel rest2
      else c :: fixAfterCloseGo names cls fuel rest
    | _ => c :: fixAfterCloseGo names cls fuel rest

def fixAfterClose (names : List (List Char)) (cls : Char → Bool)
    (s : List Char) : List Char :=
  fixAfterCloseGo names cls (strLen s) s

/-- Scanner for `(CLS)(LIT)` → `\1 \2` with a literal pattern such as
`<strong` (note: no closing `>` required). -/

def fixBeforeLitGo (cls : Char → Bool) (lit : List Char) :
    Nat → List Char → List Char
  | 0, s => s
  | _ + 1, [] => []
  | fuel + 1, c :: rest =>
    if cls c ∧ lit ≠ [] ∧ lit.isPrefixOf rest then
      c :: ' ' :: (lit ++ fixBeforeLitGo cls lit fuel (rest.drop lit.length))
    else c :: fixBeforeLitGo cls lit fuel rest

def fixBeforeLit (cls : Char → Bool) (lit : List Char) (s : List Char) :
    List Char :=
  fixBeforeLitGo cls lit (strLen s) s

/-- Scanner for `(LIT)(CLS)` → `\1 \2` with a literal pattern such as
`</strong>` followed by a class character. -/

def fixAfterLitGo (lit : List Char) (cls : Char → Bool) :
    Nat → List Char → List Char
  | 0, s => s
  | _ + 1, [] => []
  | fuel + 1, c :: rest =>
    if lit ≠ [] ∧ lit.isPrefixOf (c :: rest) then
      match (c :: rest).drop lit.length with
      | d :: rest2 =>
        if cls d then lit ++ ' ' :: d :: fixAfterLitGo lit cls fuel rest2
        else c :: fixAfterLitGo lit cls fuel rest
      | [] => c :: fixAfterLitGo lit cls fuel rest
    else c :: fixAfterLitGo lit cls fuel rest

def fixAfterLit (lit : List Char) (cls : Char → Bool) (s : List Char) :
    List Char :=
  fixAfterLitGo lit cls (strLen s) s

/-- Case-insensitive (or generally `eqf`-based) prefix match that also
returns the matched span of the subject string.  Used for `re.sub` with
`re.IGNORECASE` and for case-sensitive word patterns. -/

def splitBy (eqf : Char → Char → Bool) :
    List Char → List Char → Option (List Char × List Char)
  | [], s => some ([], s)
  | _ :: _, [] => none
  | p :: ps, c :: rest =>
    if eqf p c then (splitBy eqf ps rest).map (fun pr => (c :: pr.1, pr.2))
    else none

/-- Word boundary on the right edge of a matched span: Python `\b` at the
end of a match, decided by the last matched character and the next
character (end of string counts as non-word). -/

def endBoundary (m rest2 : List Char) : Bool :=
  match rest2 with
  | d :: _ => isWordCh (m.getLastD 'x') ≠ isWordCh d
  | [] => isWordCh (m.getLastD 'x')

/-- Scanner for `re.sub(r'\b' + PAT + r'\b', REP, s)` where characters are
compared with `eqf` (equality for case-sensitive patterns, `ciEq` for
`re.IGNORECASE`).  The boolean argument tracks whether the previous
original character was a word character; matching always happens against
the original text, as `re.sub` does. -/

def replaceWordGo (eqf : Char → Char → Bool) (pat rep : List Char) :
    Nat → Bool → List Char → List Char
  | 0, _, s => s
  | _ + 1, _, [] => []
  | fuel + 1, pw, c :: rest =>
    match splitBy eqf pat (c :: rest) with
    | some (m, rest2) =>
      if pat ≠ [] ∧ (pw ≠ isWordCh c) ∧ endBoundary m rest2 then
        rep ++ replaceWordGo eqf pat rep fuel (isWordCh (m.getLastD 'x')) rest2
      else c :: replaceWordGo eqf pat rep fuel (isWordCh c) rest
    | none => c :: replaceWordGo eqf pat rep fuel (isWordCh c) rest

/-- `re.sub(r'\b' + PAT + r'\b', REP, s, flags=re.IGNORECASE)` with a
literal (escaped) pattern. -/

def replaceWordCI (pat rep s : List Char) : List Char :=
  replaceWordGo ciEq pat rep (strLen s) false s

/-- `re.sub(r'\bi\b', 'I', s)` and similar case-sensitive word patterns. -/

def replaceWordCS (pat rep s : List Char) : List Char :=
  replaceWordGo (fun a b => a = b) pat rep (strLen s) false s

/-- Scanner for `re.sub(r'\bWORD(<TAG[^>]*>)', 'WORD \1', s)`:
a word-boundary, the literal word, then an opening tag. -/

def fixWordTagGo (word : List Char) (names : List (List Char)) :
    Nat → Bool → List Char → List Char
  | 0, _, s => s
  | _ + 1, _, [] => []
  | fuel + 1, pw, c :: rest =>
    if pw = false ∧ word ≠ [] ∧ word.isPrefixOf (c :: rest) then
      match matchOpen names ((c :: rest).drop word.length) with
      | some (tag, rest2) =>
        word ++ ' ' :: (tag ++ fixWordTagGo word names fuel false rest2)
      | none => c :: fixWordTagGo word names fuel (isWordCh c) rest
    else c :: fixWordTagGo word names fuel (isWordCh c) rest

def fixWordTag (word : List Char) (names : List (List Char))
    (s : List Char) : List Char :=
  fixWordTagGo word names (strLen s) false s

/-- `(CLS)(LIT)` with `re.IGNORECASE` on the literal, e.g.
`re.sub(r'([a-z])(<strong)', r'\1 \2', s, flags=re.IGNORECASE)`.  The
emitted text is the original matched span, as `\1 \2` reinserts the
groups unchanged. -/

def fixBeforeLitCIGo (cls : Char → Bool) (lit : List Char) :
    Nat → List Char → List Char
  | 0, s => s
  | _ + 1, [] => []
  | fuel + 1, c :: rest =>
    if cls c ∧ lit ≠ [] then
      match splitBy ciEq lit rest with
      | some (m, rest2) => c :: ' ' :: (m ++ fixBeforeLitCIGo cls lit fuel rest2)
      | none => c :: fixBeforeLitCIGo cls lit fuel rest
    else c :: fixBeforeLitCIGo cls lit fuel rest

def fixBeforeLitCI (cls : Char → Bool) (lit : List Char) (s : List Char) :
    List Char :=
  fixBeforeLitCIGo cls lit (strLen s) s

/-- `(LIT)(CLS)` with `re.IGNORECASE` on the literal. -/

def fixAfterLitCIGo (lit : List Char) (cls : Char → Bool) :
    Nat → List Char → List Char
  | 0, s => s
  | _ + 1, [] => []
  | fuel + 1, c :: rest =>
    if lit ≠ [] then
      match splitBy ciEq lit (c :: rest) with
      | some (m, d :: rest2) =>
        if cls d then m ++ ' ' :: d :: fixAfterLitCIGo lit cls fuel rest2
        else c :: fixAfterLitCIGo lit cls fuel rest
      | _ => c :: fixAfterLitCIGo lit cls fuel rest
    else c :: fixAfterLitCIGo lit cls fuel rest

def fixAfterLitCI (lit : List Char) (cls : Char → Bool) (s : List Char) :
    List Char :=
  fixAfterLitCIGo lit cls (strLen s) s

/-- The negative lookahead `(?!Up|Sync|Render|Max|CAD|Live)` of the
camel-case pass, checked after the uppercase letter. -/

def protectedAfter (s : List Char) : Bool :=
  [lc "Up", lc "Sync", lc "Render", lc "Max", lc "CAD", lc "Live"].any
    (fun w => w.isPrefixOf s)

/-- `re.sub(r'([a-z...]{2,})([A-Z...])(?!Up|Sync|Render|Max|CAD|Live)',
r'\1 \2', s)` — the camel-case splitting pass of `fix_html_spacing`. -/

def camelSplitGo : Nat → List Char → List Char
  | 0, s => s
  | _ + 1, [] => []
  | fuel + 1, c :: rest =>
    if isLowerLet c then
      (let run := (c :: rest).takeWhile isLowerLet
       match (c :: rest).dropWhile isLowerLet with
       | u :: rest3 =>
         if 2 ≤ run.length ∧ isUpperLet u ∧ ¬ protectedAfter rest3 then
           run ++ ' ' :: u :: camelSplitGo fuel rest3
         else run ++ camelSplitGo fuel (u :: rest3)
       | [] => run)
    else c :: camelSplitGo fuel rest

def camelSplit (s : List Char) : List Char := camelSplitGo (strLen s) s

/-- Sentence terminators `[.!?]`. -/

def isSentP (c : Char) : Bool := c = '.' || c = '!' || c = '?'

/-- `re.split(r'([.!?]+\s*)', s)`: pieces alternate between text and the
captured separators; empty text pieces are kept, and the concatenation of
all pieces is the original string. -/

def sentSplitGo : Nat → List Char → List Char → List (List Char)
  | 0, acc, s => [acc.reverse ++ s]
  | _ + 1, acc, [] => [acc.reverse]
  | fuel + 1, acc, c :: rest =>
    if isSentP c then
      (let run1 := (c :: rest).takeWhile isSentP
       let r1 := (c :: rest).dropWhile isSentP
       let run2 := r1.takeWhile isWs
       let r2 := r1.dropWhile isWs
       acc.reverse :: (run1 ++ run2) :: sentSplitGo fuel [] r2)
    else sentSplitGo fuel (c :: acc) rest

def splitSentences (s : List Char) : List (List Char) :=
  sentSplitGo (strLen s) [] s

/-- `capitalize_first_letter`: uppercase the first alphabetic character,
leaving everything else unchanged. -/

def capitalize_first_letter : List Char → List Char
  | [] => []
  | c :: rest =>
    if pyIsAlpha c then pyToUpper c :: rest
    else c :: capitalize_first_letter rest

/-- `re.sub(r'([.!?]\s+)([a-z...])', ...)`: uppercase a lowercase letter
after a sentence terminator plus at least one whitespace character. -/

def midSentenceUpperGo : Nat → List Char → List Char
  | 0, s => s
  | _ + 1, [] => []
  | fuel + 1, c :: rest =>
    if isSentP c then
      (let run := rest.takeWhile isWs
       match rest.dropWhile isWs with
       | d :: rest2 =>
         if run ≠ [] ∧ isLowerLet d then
           c :: (run ++ pyToUpper d :: midSentenceUpperGo fuel rest2)
         else c :: midSentenceUpperGo fuel rest
       | [] => c :: midSentenceUpperGo fuel rest)
    else c :: midSentenceUpperGo fuel rest

def midSentenceUpper (s : List Char) : List Char :=
  midSentenceUpperGo (strLen s) s

/-- `re.sub(r'(</[^>]+>\s*)([a-z...])', ...)`: uppercase a lowercase
letter after a closing tag (`</`, one or more non-`>` characters, `>`)
plus optional whitespace. -/

def afterTagUpperGo : Nat → List Char → List Char
  | 0, s => s
  | _ + 1, [] => []
  | fuel + 1, '<' :: '/' :: rest =>
    (let body := rest.takeWhile (fun x => x ≠ '>')
     match rest.dropWhile (fun x => x ≠ '>') with
     | '>' :: rest2 =>
       if body ≠ [] then
         (let run := rest2.takeWhile isWs
          match rest2.dropWhile isWs with
          | d :: rest3 =>
            if isLowerLet d then
              '<' :: '/' ::
                (body ++ '>' :: (run ++ pyToUpper d :: afterTagUpperGo fuel rest3))
            else '<' :: '/' :: afterTagUpperGo fuel rest
          | [] => '<' :: '/' :: afterTagUpperGo fuel rest)
       else '<' :: '/' :: afterTagUpperGo fuel rest
     | _ => '<' :: '/' :: afterTagUpperGo fuel rest)
  | fuel + 1, c :: rest => c :: afterTagUpperGo fuel rest

def afterTagUpper (s : List Char) : List Char := afterTagUpperGo (strLen s) s

/-- `re.sub(r'(\n\s*)([a-z...])', ...)`: uppercase a lowercase letter
after a line break plus optional whitespace. -/

def afterNewlineUpperGo : Nat → List Char → List Char
  | 0, s => s
  | _ + 1, [] => []
  | fuel + 1, c :: rest =>
    if c = '\n' then
      (let run := rest.takeWhile isWs
       match rest.dropWhile isWs with
       | d :: rest2 =>
         if isLowerLet d then
           c :: (run ++ pyToUpper d :: afterNewlineUpperGo fuel rest2)
         else c :: afterNewlineUpperGo fuel rest
       | [] => c :: afterNewlineUpperGo fuel rest)
    else c :: afterNewlineUpperGo fuel rest

def afterNewlineUpper (s : List Char) : List Char :=
  afterNewlineUpperGo (strLen s) s

/-- The decimal digit character for `n % 10`. -/

def digitChar : Nat → Char
  | 0 => '0' | 1 => '1' | 2 => '2' | 3 => '3' | 4 => '4'
  | 5 => '5' | 6 => '6' | 7 => '7' | 8 => '8' | _ => '9'

/-- Little-endian decimal digits of a natural number (fuel-based). -/

def ndGo : Nat → Nat → List Char
  | 0, _ => []
  | fuel + 1, n => if n < 10 then [digitChar n] else digitChar (n % 10) :: ndGo fuel (n / 10)

/-- The decimal representation of `n`, as the f-string `{n}` renders it. -/

def natDigits (n : Nat) : List Char := (ndGo (n + 1) n).reverse

/-- The placeholder token `HTMLTAG<n>ENDTAG`. -/

def placeholder (n : Nat) : List Char :=
  lc "HTMLTAG" ++ natDigits n ++ lc "ENDTAG"

/-- The tag-shielding scan of `preprocess_for_translation`: every match of
`</?(?:strong|em|b|i|u|span)[^>]*>` is replaced by a space-padded
placeholder, and the `(placeholder, originalTag)` pairs are collected in
insertion order. -/

def shieldGo : Nat → List Char → Nat → List Char × List (List Char × List Char)
  | 0, s, _ => (s, [])
  | _ + 1, [], _ => ([], [])
  | fuel + 1, c :: rest, n =>
    match matchTag (c :: rest) with
    | some (tag, rest2) =>
      (let pr := shieldGo fuel rest2 (n + 1)
       (' ' :: (placeholder n ++ ' ' :: pr.1), (placeholder n, tag) :: pr.2))
    | none =>
      (let pr := shieldGo fuel rest n
       (c :: pr.1, pr.2))

/-- `preprocess_for_translation` (Shield): replace inline tags with
space-padded placeholders, record the map, collapse multiple spaces.
The source leaves `self.html_replacements` untouched on empty input; the
model returns an empty map there, which no caller observes because both
translation paths guard against empty input first. -/

def preprocess_for_translation (s : List Char) :
    List Char × List (List Char × List Char) :=
  if s = [] then (s, [])
  else
    (let pr := shieldGo (strLen s) s 0
     (collapseSpaces pr.1, pr.2))

/-- Character class of `restore_html_tags`'s spacing regexes:
`[a-zA-Z0-9À-ſ.,;:!?\-]`. -/

def restoreCls (c : Char) : Bool :=
  isAsciiLower c || isAsciiUpper c || isDigitCh c || inLatinExt c ||
  c = '.' || c = ',' || c = ';' || c = ':' || c = '!' || c = '?' || c = '-'

/-- `restore_html_tags` (Unshield): replace every placeholder of the map
by its original tag (in insertion order), then force spacing around
`<strong>`/other inline tags, then collapse multiple spaces. -/

def restore_html_tags (m : List (List Char × List Char)) (s : List Char) :
    List Char :=
  if s = [] then s
  else
    (let r1 := m.foldl (fun acc pr => replaceL pr.1 pr.2 acc) s
     let r2 := fixBeforeOpen restoreCls [lc "strong"] r1
     let r3 := fixAfterClose [lc "strong"] restoreCls r2
     let r4 := fixBeforeOpen restoreCls [lc "em", lc "b", lc "i", lc "u", lc "span"] r3
     let r5 := fixAfterClose [lc "em", lc "b", lc "i", lc "u", lc "span"] restoreCls r4
     collapseSpaces r5)

/-- The `critical_terms` dictionary, in insertion order. -/

def critical_terms : List (String × String) :=
  [ ("SketchUp", "SketchUp"), ("skicip", "SketchUp"), ("skicipu", "SketchUp"),
    ("skicipup", "SketchUp"), ("D5 Render", "D5 Render"),
    ("vykreslování D5", "D5 Render"), ("vykreslení D5", "D5 Render"),
    ("LiveSync", "LiveSync"), ("Lifesync", "LiveSync"),
    ("D5 Converter", "D5 Converter"), ("Převodník D5", "D5 Converter"),
    ("převodníku D5", "D5 Converter"), ("PBR materiály", "PBR materiály"),
    ("HDRI mapy", "HDRI mapy"), ("LED pásy", "LED pásy"),
    ("LED proužky", "LED pásy"), ("fotorealistické", "fotorealistické"),
    ("Fotorealistické", "Fotorealistické"), ("360°", "360°"), ("4K", "4K"),
    ("konzultace", "konzultace"), ("konzultaci", "konzultaci"),
    ("konzultovat", "konzultovat"), ("kontaktujte", "kontaktujte"),
    ("Kontaktuj", "Kontaktuj"), ("kurz", "kurz"), ("kurzu", "kurz"),
    ("Přihlásit se na kurz", "Přihlásit se na kurz"),
    ("Přihlaste se do kurzu", "Přihlásit se na kurz"),
    ("za 3 minuty", "za 3 minuty"), ("za pár minut", "za pár minut"),
    ("v reálném čase", "v reálném čase"), ("bez kompromisů", "bez kompromisů"),
    ("profesionální účely", "profesionální účely"),
    ("modelování", "modelování"), ("vizualizace", "vizualizace"),
    ("kombinace", "kombinace"), ("nástroj", "nástroj"),
    ("nástroje", "nástroje"), ("program", "program"),
    ("programy", "programy"), ("projekt", "projekt"),
    ("projekty", "projekty"), ("materiál", "materiál"),
    ("materiály", "materiály"), ("textury", "textury"),
    ("osvětlení", "osvětlení"), ("geometrie", "geometrie"),
    ("komponenty", "komponenty"), ("objekty", "objekty"),
    ("kamery", "kamery"), ("animace", "animace"), ("export", "export"),
    ("rozlišení", "rozlišení")]

/-- Stable insertion into a list sorted by key length descending: an
element goes before every element of equal or shorter key.  Mirrors
`sorted(..., key=lambda x: len(x[0]), reverse=True)` (Python's sort is
stable, so dictionary order breaks ties). -/

def insertByLen (x : List Char × List Char) :
    List (List Char × List Char) → List (List Char × List Char)
  | [] => [x]
  | y :: ys =>
    if x.1.length < y.1.length then y :: insertByLen x ys else x :: y :: ys

def sortByLenDesc : List (List Char × List Char) → List (List Char × List Char)
  | [] => []
  | x :: xs => insertByLen x (sortByLenDesc xs)

/-- Model of Python's `str.isupper` for one character. -/

def pyIsUpper (c : Char) : Bool := isUpperLet c

/-- The explicit brand list in `apply_critical_terms`'s branch test. -/

def exactBrandList : List (List Char) :=
  [lc "SketchUp", lc "D5 Render", lc "LiveSync", lc "D5 Converter"]

/-- `apply_critical_terms`: apply the table longest-source-first; terms
with an uppercase letter (or in the brand list) by exact substring
replacement, the rest by case-insensitive whole-word replacement. -/

def apply_critical_terms (s : List Char) : List Char :=
  if s = [] then s
  else
    (sortByLenDesc (critical_terms.map (fun p => (p.1.data, p.2.data)))).foldl
      (fun acc pr =>
        if pr.1.any pyIsUpper || exactBrandList.contains pr.1 then
          replaceL pr.1 pr.2 acc
        else replaceWordCI pr.1 pr.2 acc) s

/-- Regex class `[\w.,;:!?]` of `fix_html_spacing` phase 1. -/

def phase1Cls (c : Char) : Bool :=
  isWordCh c || c = '.' || c = ',' || c = ';' || c = ':' || c = '!' || c = '?'

/-- Regex class `[.!?:;,]` (also `[.,;:!?]`). -/

def punctCls (c : Char) : Bool :=
  c = '.' || c = ',' || c = ';' || c = ':' || c = '!' || c = '?'

/-- The `czech_words` list of `fix_html_spacing` phase 4. -/

def czech_words : List String :=
  [ "na", "pro", "do", "za", "od", "po", "při", "před", "nad", "pod", "mezi",
    "v", "s", "k", "o", "u", "z", "i", "a", "ale", "nebo", "že", "aby",
    "nástroj", "program", "funkce", "možnost", "způsob", "metoda"]

/-- The `brand_fixes` dictionary of `fix_html_spacing` phase 7. -/

def brand_fixes : List (String × String) :=
  [ ("Sketch Up", "SketchUp"), ("sketch up", "SketchUp"),
    ("Live Sync", "LiveSync"), ("live sync", "LiveSync"),
    ("D5 Render", "D5 Render"), ("3ds Max", "3ds Max"),
    ("Archi CAD", "ArchiCAD"), ("archi cad", "ArchiCAD")]

/-- `fix_html_spacing`: the seven-phase spacing repair. -/

def fix_html_spacing (s : List Char) : List Char :=
  if s = [] then s
  else
    (let r1 := tagNames.foldl (fun acc tag => fixBeforeOpen phase1Cls [tag] acc) s
     let r2 := tagNames.foldl
       (fun acc tag => fixAfterClose [tag] (fun c => isWordCh c) acc) r1
     let r3 := fixBeforeOpen punctCls tagNames r2
     let r4 := czech_words.foldl
       (fun acc w => tagNames.foldl
         (fun acc2 tag => fixWordTag w.data [tag] acc2) acc) r3
     let r5 := camelSplit r4
     let r6 := collapseSpaces r5
     brand_fixes.foldl (fun acc pr => replaceL pr.1.data pr.2.data acc) r6)

/-- Fold a list of `X<TAG>` → `X <TAG>` literal replacements, mirroring
the source's comprehensions `(f-string pattern, f-string fix)` and its
explicit `(original, fixed)` pair lists. -/

def applyBeforePairs (ws : List String) (tag : List Char) (s : List Char) :
    List Char :=
  ws.foldl (fun acc w => replaceL (w.data ++ tag) (w.data ++ ' ' :: tag) acc) s

/-- Fold a list of `</TAG>X` → `</TAG> X` literal replacements. -/

def applyAfterPairs (tag : List Char) (ws : List String) (s : List Char) :
    List Char :=
  ws.foldl (fun acc w => replaceL (tag ++ w.data) (tag ++ ' ' :: w.data) acc) s

/-- The `czech_prepositions` list of `post_translation_spacing_fix`
phase 4 (the duplicated entry of the source is kept). -/

def czech_prepositions : List String :=
  [ "na", "pro", "do", "za", "od", "po", "při", "před", "nad", "pod", "mezi",
    "bez", "podle", "během", "kolem", "okolo", "vedle", "mimo", "skrz",
    "přes", "v", "s", "k", "o", "u", "z", "i", "a", "ale", "nebo", "že",
    "aby", "obsahuje", "nabízí", "umožní", "můžete", "budete", "budou",
    "mají", "jsou", "této", "tohoto", "této", "tomto", "tyto", "také",
    "více", "všechny", "práce", "nástroj", "program", "software", "funkce",
    "možnost"]

/-- Regex class `[A-ZÀ-ſ]` of `post_translation_spacing_fix` phase 6. -/

def phase6Cls (c : Char) : Bool := isAsciiUpper c || inLatinExt c

/-- Regex class `[a-zA-Z0-9À-ſ]` of phase 7 (before opening tags). -/

def cls7a (c : Char) : Bool :=
  isAsciiLower c || isAsciiUpper c || isDigitCh c || inLatinExt c

/-- Regex class `[a-zA-ZÀ-ſ]` of phase 7 (after closing tags). -/

def cls7b (c : Char) : Bool := isAsciiLower c || isAsciiUpper c || inLatinExt c

/-- `post_translation_spacing_fix`: the eight-phase aggressive repair. -/

def post_translation_spacing_fix (s : List Char) : List Char :=
  if s = [] then s
  else
    (let r1 := fixBeforeOpen (fun c => isWordCh c) tagNames s
     let r2 := fixAfterClose tagNames (fun c => isWordCh c) r1
     let r3 := fixBeforeOpen punctCls tagNames r2
     let r4 := czech_prepositions.foldl
       (fun acc w =>
         replaceL (w.data ++ lc "<em>") (w.data ++ ' ' :: lc "<em>")
           (replaceL (w.data ++ lc "<strong>") (w.data ++ ' ' :: lc "<strong>")
             acc)) r3
     let r5 := fixBeforeOpen isSentP tagNames r4
     let r6 := fixAfterClose tagNames phase6Cls r5
     let r7a := fixBeforeOpen cls7a [lc "strong"] r6
     let r7b := fixAfterClose [lc "strong"] cls7b r7a
     let r7c := fixBeforeOpen cls7a [lc "em"] r7b
     let r7d := fixAfterClose [lc "em"] cls7b r7c
     collapseSpaces r7d)

/-- Regex class `[^\s]`. -/

def nonSpaceCls (c : Char) : Bool := ¬ isWs c

/-- Regex class `[a-zA-Z0-9áčďéěíňóřšťúůýžÁČĎÉĚÍŇÓŘŠŤÚŮÝŽ.,;:!?]` of
`force_strong_tag_spacing` pass 5 and `translate_text` pass 7. -/

def czechCls (c : Char) : Bool :=
  isAsciiLower c || isAsciiUpper c || isDigitCh c ||
  czechLowerList.contains c || czechUpperList.contains c || punctCls c

/-- The `problematic_patterns` left-hand words of
`force_strong_tag_spacing` pass 3 (each entry is `W<strong>` →
`W <strong>`), in source order. -/

def fsp_words : List String :=
  [ "na", "pro", "do", "za", "od", "po", "při", "před", "nad", "pod",
    "mezi", "bez", "podle", "během", "kolem", "nástroj", "program",
    "software", "funkce", "možnost", "způsob", "metoda",
    "a", "e", "i", "o", "u", "y", "v", "s", "k", "z",
    "ě", "á", "é", "í", "ó", "ú", "ů", "ý", "č", "ď", "ň", "ř", "š", "ť",
    "ž", "0", "1", "2", "3", "4", "5", "6", "7", "8", "9",
    ".", ",", ";", ":", "!", "?"]

/-- The `closing_patterns` right-hand characters of
`force_strong_tag_spacing` pass 4 (each entry is `</strong>X` →
`</strong> X`), in source order. -/

def fsp_after : List String :=
  [ "V", "T", "A", "I", "O", "U", "E", "N", "S", "K", "P", "R", "L", "M",
    "D", "B", "C", "F", "G", "H", "J", "Q", "W", "X", "Y", "Z",
    "Á", "É", "Í", "Ó", "Ú", "Ů", "Ý", "Č", "Ď", "Ě", "Ň", "Ř", "Š", "Ť",
    "Ž", "0", "1", "2", "3", "4", "5", "6", "7", "8", "9"]

/-- `force_strong_tag_spacing`: the six-pass strong-tag enforcement. -/

def force_strong_tag_spacing (s : List Char) : List Char :=
  if s = [] then s
  else
    (let r1 := fixBeforeLit nonSpaceCls (lc "<strong") s
     let r2 := fixAfterLit (lc "</strong>") nonSpaceCls r1
     let r3 := applyBeforePairs fsp_words (lc "<strong>") r2
     let r4 := applyAfterPairs (lc "</strong>") fsp_after r3
     let r5 := fixBeforeLit czechCls (lc "<strong") r4
     let r6 := fixAfterLit (lc "</strong>") czechCls r5
     collapseWs r6)

/-- Is the segment only sentence punctuation and whitespace
(`re.match(r'^[.!?\s]+$', seg)`)? -/

def allPunctWs (seg : List Char) : Bool :=
  decide (seg ≠ []) && seg.all (fun c => isSentP c || isWs c)

/-- Truthiness of `s.strip()`: the string has a non-whitespace character. -/

def stripHasContent (s : List Char) : Bool := s.any (fun c => ¬ isWs c)

/-- `fix_capitalization`: per-sentence first-letter capitalization, then
mid-sentence, after-closing-tag and after-line-break capitalization. -/

def fix_capitalization (s : List Char) : List Char :=
  if s = [] then s
  else
    (let segs := splitSentences s
     let segs2 := segs.map (fun seg =>
       if stripHasContent seg then
         if ¬ allPunctWs seg then
           replaceWordCS (lc "i") (lc "I")
             (midSentenceUpper (capitalize_first_letter seg))
         else seg
       else seg)
     afterNewlineUpper (afterTagUpper segs2.flatten))

/-- The ordered spacing-repair sequence of `translate_text` (the spec's
Reconcile): `fix_html_spacing`, then `post_translation_spacing_fix`, then
`force_strong_tag_spacing`. -/

def reconcile (s : List Char) : List Char :=
  force_strong_tag_spacing (post_translation_spacing_fix (fix_html_spacing s))

/-- A translation engine: takes the running call count and the text of
one engine invocation; `none` models a raised exception. -/

def Engine : Type := Nat → List Char → Option (List Char)

/-- The passthrough engine: returns its input unchanged. -/

def passEngine : Engine := fun _ s => some s

/-- An engine whose every call fails. -/

def failEngine : Engine := fun _ _ => none

/-- `max_retries` and `retry_delay` of the translator's constructor. -/

def max_retries : Nat := 3

def retry_delay : Nat := 1

/-- The greedy sentence-chunk accumulation of `_translate_long_text`:
append the next piece while the chunk stays under 4500 characters,
otherwise flush the chunk (when non-empty) and start a new one. -/

def buildChunks : List (List Char) → List Char → List (List Char)
  | [], cur => if cur = [] then [] else [cur]
  | p :: ps, cur =>
    if strLen (cur ++ p) < 4500 then buildChunks ps (cur ++ p)
    else if cur = [] then buildChunks ps p
    else cur :: buildChunks ps p

/-- One chunk of `_translate_long_text`: re-shield the chunk (this
overwrites `self.html_replacements` with the chunk's own, freshly built
map), call the engine once, and restore with that inner map; an engine
failure degrades to restoring the preprocessed chunk. -/

def processChunk (eng : Engine) (k : Nat) (chunk : List Char) :
    List Char × Nat :=
  let pr := preprocess_for_translation chunk
  match eng k pr.1 with
  | some res => (restore_html_tags pr.2 res, k + 1)
  | none => (restore_html_tags pr.2 pr.1, k + 1)

/-- `_translate_long_text`: split into sentence pieces, chunk them, run
each chunk through one engine call, concatenate in order. -/

def translate_long_text (eng : Engine) (k : Nat) (s : List Char) :
    List Char × Nat :=
  (buildChunks (splitSentences s) []).foldl
    (fun acc chunk =>
      let pr := processChunk eng acc.2 chunk
      (acc.1 ++ pr.1, pr.2))
    ([], k)

/-- The retry loop of `translate_with_google` (`for attempt in
range(max_retries)`), tracked by the number of remaining attempts.  The
result carries the translated text, the engine call count, and the list
of `time.sleep` delays performed.  The long-text path returns inside the
first attempt and cannot raise (its chunk failures are absorbed). -/

def attemptLoop (eng : Engine) (m : List (List Char × List Char))
    (pre : List Char) (k : Nat) : Nat → List Char × Nat × List Nat
  | 0 => (pre, k, [])
  | remaining + 1 =>
    if 4500 < strLen pre then
      (let pr := translate_long_text eng k pre
       (pr.1, pr.2, []))
    else
      match eng k pre with
      | some res => (restore_html_tags m res, k + 1, [])
      | none =>
        if remaining = 0 then (pre, k + 1, [])
        else
          (let pr := attemptLoop eng m pre (k + 1) remaining
           (pr.1, pr.2.1, retry_delay :: pr.2.2))

/-- `translate_with_google`: empty or whitespace-only input is returned
unchanged; otherwise shield, then try the engine with retries; exhausted
retries return the preprocessed (still shielded) text. -/

def translate_with_google (eng : Engine) (k : Nat) (s : List Char) :
    List Char × Nat × List Nat :=
  if ¬ stripHasContent s then (s, k, [])
  else
    (let pr := preprocess_for_translation s
     attemptLoop eng pr.2 pr.1 k max_retries)

/-- The `problematic_before` list of `translate_text` pass 2 (note the
entry `na ` with a trailing space, kept verbatim). -/

def problematic_before : List String :=
  [ "na", "pro", "do", "za", "od", "po", "v", "s", "k", "o", "se", "na ",
    "nástroje", "při", "před", "nad", "pod", "mezi", "bez", "podle",
    "během", "kolem", "nástroj", "program", "software", "funkce",
    "možnost", "způsob", "metoda"]

/-- The `problematic_after` capital letters of `translate_text` pass 3. -/

def problematic_after : List String :=
  [ "V", "T", "A", "I", "O", "U", "E", "N", "S", "K", "P", "R", "L", "M",
    "D", "B", "C", "F", "G", "H", "J", "Q", "W", "X", "Y", "Z"]

/-- The left-hand words of the `nuclear_patterns` list of
`translate_text` pass 5 (the duplicate `na` entry is kept). -/

def nuclear_before : List String :=
  [ "na", "pro", "do", "za", "od", "po", "v", "s", "k", "o", "na",
    "nástroje", "při", "před", "nad", "pod", "mezi", "bez", "podle",
    "během", "kolem", "nástroj", "program", "software", "funkce",
    "možnost", "způsob", "metoda"]

/-- The right-hand letters of the `nuclear_patterns` closing entries. -/

def nuclear_after : List String :=
  [ "V", "T", "A", "I", "O", "U", "E", "N", "S", "K", "P", "R", "L", "M",
    "D", "B", "C", "F", "G", "H", "J", "Q", "W", "X", "Y", "Z"]

/-- Regex class `[a-z]` under `re.IGNORECASE`. -/

def asciiCls (c : Char) : Bool := isAsciiLower c || isAsciiUpper c

/-- `translate_text`: the full per-unit pipeline — engine translation
with shielding, critical terms, the three spacing stages, capitalization,
and the final multi-pass strong-tag spacing of lines 267-364. -/

def translate_text (eng : Engine) (k : Nat) (s : List Char) : List Char :=
  if ¬ stripHasContent s then s
  else
    (let t1 := (translate_with_google eng k s).1
     let t2 := apply_critical_terms t1
     let t3 := fix_html_spacing t2
     let t4 := post_translation_spacing_fix t3
     let t5 := fix_capitalization t4
     let t6 := force_strong_tag_spacing t5
     let t7 := applyBeforePairs ["na"] (lc "<strong>") t6
     let t8 := applyAfterPairs (lc "</strong>") ["V", "T", "A", "I", "O", "U"] t7
     let t9 := fixBeforeLitCI asciiCls (lc "<strong") t8
     let t10 := fixAfterLitCI (lc "</strong>") asciiCls t9
     let t11 := applyBeforePairs problematic_before (lc "<strong>") t10
     let t12 := applyAfterPairs (lc "</strong>") problematic_after t11
     let t13 := fixBeforeLit nonSpaceCls (lc "<strong>") t12
     let t14 := fixAfterLit (lc "</strong>") nonSpaceCls t13
     let t15 := applyBeforePairs nuclear_before (lc "<strong>") t14
     let t16 := applyAfterPairs (lc "</strong>") nuclear_after t15
     let t17 := collapseWs t16
     let t18 := fixBeforeLit czechCls (lc "<strong") t17
     fixAfterLit (lc "</strong>") czechCls t18)



/-- Tail-recursive substring test: does `pat` occur in `s`? -/
def containsL (pat : List Char) : List Char → Bool
  | [] => pat.isEmpty
  | c :: rest => if pat.isPrefixOf (c :: rest) then true else containsL pat rest

/-- Case-insensitive substring test (under `ciEq`). -/
def containsCI (pat : List Char) : List Char → Bool
  | [] => (splitBy ciEq pat []).isSome
  | c :: rest =>
    if (splitBy ciEq pat (c :: rest)).isSome then true else containsCI pat rest

/-- Remove every space character; two strings are then equal exactly when
they agree up to space padding. -/
def eraseSpaces (s : List Char) : List Char := s.filter (fun c => c ≠ ' ')

/-- Is there a run of two or more consecutive space characters? -/
def hasTwoSpaces : List Char → Bool
  | c :: d :: rest => (c = ' ' && d = ' ') || hasTwoSpaces (d :: rest)
  | _ => false

/-- Is there a pair of adjacent whitespace characters? -/
def hasTwoWs : List Char → Bool
  | c :: d :: rest => (isWs c && isWs d) || hasTwoWs (d :: rest)
  | _ => false

/-- Match the closing-tag pattern `</NAME[^>]*>` at the head of `s`. -/
def matchClose (names : List (List Char)) (s : List Char) :
    Option (List Char × List Char) :=
  match s with
  | '<' :: '/' :: rest =>
    (match findName names rest with
     | some (n, rest3) =>
       match takeToGt rest3 with
       | some (body, rest4) => some ('<' :: '/' :: (n ++ body), rest4)
       | none => none
     | none => none)
  | _ => none

/-- Does a non-whitespace character stand immediately before an inline
opening tag (`<strong|em|b|i|u|span` with arbitrary attributes)? -/
def hasOpenGlue : List Char → Bool
  | [] => false
  | c :: rest =>
    if ¬ isWs c ∧ (matchOpen tagNames rest).isSome then true
    else hasOpenGlue rest

/-- Does an inline closing tag stand immediately before a non-whitespace
character? -/
def hasCloseGlue : List Char → Bool
  | [] => false
  | c :: rest =>
    (match matchClose tagNames (c :: rest) with
     | some (_, d :: _) => ! isWs d
     | _ => false) || hasCloseGlue rest

/-- The fixed-point spacing invariant claimed for the pipeline output:
no visible character glued to an inline tag boundary on either side, and
no run of two or more spaces. -/
def spacingInvariant (s : List Char) : Bool :=
  ¬ hasOpenGlue s && ¬ hasCloseGlue s && ¬ hasTwoSpaces s

/-- Is some class character immediately followed by the literal `pat`? -/
def hasGlueB (cls : Char → Bool) (pat : List Char) : List Char → Bool
  | [] => false
  | c :: rest =>
    if cls c ∧ pat.isPrefixOf rest then true else hasGlueB cls pat rest

/-- Is the literal `pat` immediately followed by a class character? -/
def hasGlueA (pat : List Char) (cls : Char → Bool) : List Char → Bool
  | [] => false
  | c :: rest =>
    (pat.isPrefixOf (c :: rest) &&
      (match (c :: rest).drop pat.length with
       | d :: _ => cls d
       | [] => false)) || hasGlueA pat cls rest

/-- Does a generic closing tag (`</`, one or more non-`>` characters,
`>`) stand immediately before a lowercase letter? -/
def closeLowerAt (s : List Char) : Bool :=
  match s with
  | '<' :: '/' :: rest =>
    (match rest.dropWhile (fun x => x ≠ '>') with
     | '>' :: d :: _ =>
       decide (rest.takeWhile (fun x => x ≠ '>') ≠ []) && isLowerLet d
     | _ => false)
  | _ => false

def hasCloseLower : List Char → Bool
  | [] => false
  | c :: rest => if closeLowerAt (c :: rest) then true else hasCloseLower rest

/-- Unshield after Shield with the map the Shield call produced — the
round trip of the tag-shielding codec on one text unit. -/
def unshield_shield (t : List Char) : List Char :=
  restore_html_tags (preprocess_for_translation t).2
    (preprocess_for_translation t).1

/-- A text whose shielded form exceeds the 4500-character chunking
threshold: one inline tag pair around 4494 characters of prose. -/
def c3Input : List Char :=
  lc "<strong>" ++ List.replicate 4494 'a' ++ lc "</strong>"

/-- No source term of the table occurs in `s`, even case-insensitively. -/

def noCriticalTermOccurs (s : List Char) : Bool :=
  critical_terms.all (fun p => ! containsCI p.1.data s)

/-- Pointwise relation between a string and a copy in which some
lowercase letters have been uppercased; both capitalization repair
scanners produce an `UpRel`-image of their input. -/

inductive UpRel : List Char → List Char → Prop
  | nil : UpRel [] []
  | keep (c : Char) {s t : List Char} : UpRel s t → UpRel (c :: s) (c :: t)
  | up (c : Char) {s t : List Char} (h : isLowerLet c = true) :
      UpRel s t → UpRel (c :: s) (pyToUpper c :: t)

/-- Does the camel-case pass of `fix_html_spacing` fire anywhere?
Mirrors the scan of `camelSplitGo`. -/

def hasCamelFireGo : Nat → List Char → Bool
  | 0, _ => false
  | _ + 1, [] => false
  | fuel + 1, c :: rest =>
    if isLowerLet c then
      (match (c :: rest).dropWhile isLowerLet with
       | u :: rest3 =>
         if 2 ≤ ((c :: rest).takeWhile isLowerLet).length ∧ isUpperLet u ∧
             ¬ protectedAfter rest3 then true
         else hasCamelFireGo fuel (u :: rest3)
       | [] => false)
    else hasCamelFireGo fuel rest

def hasCamelFire (s : List Char) : Bool := hasCamelFireGo (strLen s) s

/-- A string already in spacing normal form: no `<` (so no tag or tag
fragment), no two adjacent whitespace characters, no camel-case-split
site, and no occurrence of a `brand_fixes` source such as "Sketch Up". -/

def spacingNormal (s : List Char) : Bool :=
  ! containsL (lc "<") s && ! hasTwoWs s && ! hasCamelFire s &&
    brand_fixes.all (fun p => ! containsL p.1.data s)

/-- The shielded form of `c3Input`: space-padded placeholders around the
prose, as produced by `preprocess_for_translation`. -/

def c3S : List Char :=
  ' ' :: (placeholder 0 ++ ' ' ::
    (List.replicate 4494 'a' ++ ' ' :: (placeholder 1 ++ [' '])))

/-- Does the tag pattern `</?(?:strong|em|b|i|u|span)[^>]*>` match at any
position of `s`? -/

def hasTagMatch : List Char → Bool
  | [] => false
  | c :: rest => (matchTag (c :: rest)).isSome || hasTagMatch rest

/-- Concatenation of a list of strings (`''.join`). -/

def catAll : List (List Char) → List Char
  | [] => []
  | x :: xs => x ++ catAll xs

/-- `Shr x y`: `y` arises from `x` by repeatedly deleting a space that is
immediately followed by another space — the elementary step of the
`' {2,}' -> ' '` collapse. -/

inductive Shr : List Char → List Char → Prop
  | nil : Shr [] []
  | keep (c : Char) {x y : List Char} : Shr x y → Shr (c :: x) (c :: y)
  | drop {x : List Char} {y : List Char} :
      Shr (' ' :: x) y → Shr (' ' :: ' ' :: x) y

/-- `Ins x y`: `y` arises from `x` by inserting space characters — the
elementary step of every `\1 \2` spacing-repair substitution. -/

inductive Ins : List Char → List Char → Prop
  | nil : Ins [] []
  | keep (c : Char) {x y : List Char} : Ins x y → Ins (c :: x) (c :: y)
  | ins {x y : List Char} : Ins x y → Ins x (' ' :: y)

theorem dropWhile_len_le (p : Char → Bool) (l : List Char) :
    (l.dropWhile p).length ≤ l.length := by
  induction l with
  | nil => simp [List.dropWhile]
  | cons c rest ih =>
    by_cases h : p c = true
    · simp [List.dropWhile, h]; omega
    · simp [List.dropWhile, h]

theorem takeToGt_len {s a r : List Char} (h : takeToGt s = some (a, r)) :
    r.length < s.length ∧ a.length + r.length = s.length := by
  induction s generalizing a r with
  | nil => simp [takeToGt] at h
  | cons c rest ih =>
    by_cases hc : c = '>'
    · simp [takeToGt, hc] at h
      obtain ⟨h1, h2⟩ := h
      subst h1; subst h2
      refine ⟨by simp, by simp [Nat.add_comm]⟩
    · simp [takeToGt, hc] at h
      cases hr : takeToGt rest with
      | none => rw [hr] at h; simp at h
      | some p =>
        rw [hr] at h
        simp at h
        obtain ⟨h1, h2⟩ := h
        have := ih (a := p.1) (r := p.2) (by rw [hr])
        subst h1; subst h2
        simp
        omega

theorem findName_len {names : List (List Char)} {s n r : List Char}
    (hn : ∀ m ∈ names, m ≠ []) (h : findName names s = some (n, r)) :
    n ≠ [] ∧ n ++ r = s := by
  induction names with
  | nil => simp [findName] at h
  | cons m ms ih =>
    by_cases hp : m.isPrefixOf s
    · simp [findName, hp] at h
      obtain ⟨h1, h2⟩ := h
      subst h1; subst h2
      refine ⟨hn m (by simp), ?_⟩
      obtain ⟨t, ht⟩ := List.isPrefixOf_iff_prefix.mp hp
      rw [← ht]; simp
    · simp [findName, hp] at h
      exact ih (fun a ha => hn a (by simp [ha])) h

theorem tagNames_ne_nil : ∀ m ∈ tagNames, m ≠ [] := by decide

theorem findName_len_le {names : List (List Char)} {s n r : List Char}
    (h : findName names s = some (n, r)) : r.length ≤ s.length := by
  induction names with
  | nil => simp [findName] at h
  | cons m ms ih =>
    by_cases hp : m.isPrefixOf s
    · simp [findName, hp] at h
      obtain ⟨h1, h2⟩ := h
      subst h2
      simp
    · simp [findName, hp] at h
      exact ih h

theorem matchTag_len {s t r : List Char} (h : matchTag s = some (t, r)) :
    r.length < s.length := by
  unfold matchTag at h
  split at h
  · rename_i rest
    split at h
    · rename_i n rest3 hf
      split at h
      · rename_i body rest4 hg
        simp at h
        obtain ⟨h1, h2⟩ := h
        subst h2
        have hg2 := (takeToGt_len hg).1
        have hf2 := findName_len_le hf
        simp
        omega
      · simp at h
    · simp at h
  · rename_i rest _ _
    split at h
    · rename_i n rest3 hf
      split at h
      · rename_i body rest4 hg
        simp at h
        obtain ⟨h1, h2⟩ := h
        subst h2
        have hg2 := (takeToGt_len hg).1
        have hf2 := findName_len_le hf
        simp
        omega
      · simp at h
    · simp at h
  · simp at h

theorem matchOpen_len {names : List (List Char)} {s t r : List Char}
    (h : matchOpen names s = some (t, r)) : r.length < s.length := by
  unfold matchOpen at h
  split at h
  · rename_i rest
    split at h
    · rename_i n rest3 hf
      split at h
      · rename_i body rest4 hg
        simp at h
        obtain ⟨h1, h2⟩ := h
        subst h2
        have hg2 := (takeToGt_len hg).1
        have hf2 := findName_len_le hf
        simp
        omega
      · simp at h
    · simp at h
  · simp at h

theorem closeAt_len {names : List (List Char)} {s t r : List Char}
    (h : closeAt names s = some (t, r)) : r.length + 1 < s.length := by
  unfold closeAt at h
  split at h
  · rename_i rest
    split at h
    · rename_i n rest3 hf
      split at h
      · rename_i rest4
        simp at h
        obtain ⟨h1, h2⟩ := h
        subst h2
        have hf2 := findName_len_le hf
        simp at hf2 ⊢
        omega
      · simp at h
    · simp at h
  · simp at h

theorem splitBy_len {eqf : Char → Char → Bool} {pat s m r : List Char}
    (h : splitBy eqf pat s = some (m, r)) :
    m.length = pat.length ∧ m ++ r = s := by
  induction pat generalizing s m r with
  | nil =>
    simp [splitBy] at h
    obtain ⟨h1, h2⟩ := h
    subst h1; subst h2; simp
  | cons p ps ih =>
    match s with
    | [] => simp [splitBy] at h
    | c :: rest =>
      by_cases he : eqf p c
      · simp [splitBy, he] at h
        cases hs : splitBy eqf ps rest with
        | none => rw [hs] at h; simp at h
        | some pr =>
          rw [hs] at h
          simp at h
          obtain ⟨a, ha, hm⟩ := h
          subst hm
          have := ih (s := rest) (m := a) (r := r) (by rw [hs, ha])
          simp
          exact ⟨this.1, this.2⟩
      · simp [splitBy, he] at h

set_option maxRecDepth 4000 in
/-- C9 (counterexample): on the exact scenario input, the ordered
spacing-repair sequence does not leave the period after the closing tag
untouched — the claimed output is wrong. -/
theorem c9_scenario_cex :
    reconcile (lc "tool for<strong>3D modeling</strong>.") ≠
    lc "tool for <strong>3D modeling</strong>." := by decide

set_option maxRecDepth 4000 in
/-- C9 (amended): spacing reconciliation on
`tool for<strong>3D modeling</strong>.` inserts one space between `for`
and the opening tag and also one space between the closing tag and the
period, because `force_strong_tag_spacing` separates every non-space
character from an adjacent `</strong>`. -/
theorem c9_scenario :
    reconcile (lc "tool for<strong>3D modeling</strong>.") =
    lc "tool for <strong>3D modeling</strong> ." := by decide

set_option maxRecDepth 4000 in
/-- C2 (counterexample): the spacing-repair sequence is not idempotent.
On `Sketch \nUp` the first run only collapses the whitespace (the
brand-fix pass ran before the final whitespace collapse created
`Sketch Up`), and the second run rewrites it to `SketchUp`. -/
theorem c2_idempotence_cex :
    reconcile (reconcile (lc "Sketch \nUp")) ≠
    reconcile (lc "Sketch \nUp") := by decide

set_option maxRecDepth 4000 in
/-- C7 (counterexample): `apply_critical_terms` is not idempotent.  On
`vykreslování vykreslování D5` one application yields
`vykreslování D5 Render` (creating a fresh occurrence of the source term
`vykreslování D5`), and a second application yields `D5 Render Render`. -/
theorem c7_idempotence_cex :
    apply_critical_terms
      (apply_critical_terms (lc "vykreslování vykreslování D5")) ≠
    apply_critical_terms (lc "vykreslování vykreslování D5") := by decide

set_option maxRecDepth 4000 in
/-- C4 (counterexample): when every engine attempt fails, the single-call
path of `translate_with_google` returns the preprocessed text as-is —
placeholders are NOT restored, so the fallback is not
`shielded-then-unshielded` as claimed. -/
theorem c4_retry_fallback_cex :
    (translate_with_google failEngine 0 (lc "a<strong>b</strong>")).1 =
      lc "a HTMLTAG0ENDTAG b HTMLTAG1ENDTAG " ∧
    containsL (lc "<strong>")
      (translate_with_google failEngine 0 (lc "a<strong>b</strong>")).1 =
      false := by decide

set_option maxRecDepth 4000 in
/-- C10 (counterexample): `fix_capitalization "</strong>v"` is not
`"</strong>V"` — the closing tag sits at the first alphabetic position of
its sentence segment, so `capitalize_first_letter` capitalizes the tag
itself and the result is `"</Strong>V"`. -/
theorem c10_after_tag_cex :
    fix_capitalization (lc "</strong>v") ≠ lc "</strong>V" := by decide

set_option maxRecDepth 4000 in
/-- C5 (counterexample): the shielding round trip is not the identity up
to space padding.  If the input text already contains the literal
placeholder token `HTMLTAG0ENDTAG`, `restore_html_tags` rewrites that
prose occurrence into a tag as well, so content changes beyond spacing. -/
theorem c5_roundtrip_cex :
    eraseSpaces (unshield_shield (lc "HTMLTAG0ENDTAG <em>x</em>")) ≠
    eraseSpaces (lc "HTMLTAG0ENDTAG <em>x</em>") := by decide

set_option maxRecDepth 8000 in
/-- C1 (counterexample): the full pipeline (passthrough engine) can leave
a visible character glued to an inline opening tag: a parenthesis inside
a shielded tag's attribute text is not covered by any repair class, so
the output violates the claimed fixed-point spacing invariant. -/
theorem c1_spacing_invariant_cex :
    spacingInvariant
      (translate_text passEngine 0 (lc "ab<span x=\"(<em\">c</span>")) =
      false := by decide

/-- C4 (amended): on an engine that fails every call, the single-call
path performs exactly `max_retries` (3) attempts with a fixed
`retry_delay` (1 second) sleep between consecutive attempts, never
raises, and falls back to returning the preprocessed — still shielded —
text (placeholders are not restored). -/
theorem c4_retry_fallback_amended (s : List Char) (eng : Engine)
    (hfail : ∀ i t, eng i t = none)
    (hcontent : stripHasContent s = true)
    (hshort : ¬ 4500 < strLen (preprocess_for_translation s).1) :
    translate_with_google eng 0 s =
      ((preprocess_for_translation s).1, 3, [retry_delay, retry_delay]) := by
  unfold translate_with_google
  rw [hcontent]
  simp only [Bool.true_eq_false, if_false, ite_false, Bool.not_true]
  unfold max_retries
  unfold attemptLoop
  rw [if_neg hshort, hfail]
  unfold attemptLoop
  rw [if_neg hshort, hfail]
  unfold attemptLoop
  rw [if_neg hshort, hfail]
  simp [retry_delay]

set_option maxRecDepth 4000 in
/-- Witness for C4 (amended) at the concrete input "a<strong>b</strong>"
with the always-failing engine. -/
theorem c4_retry_fallback_amended_witness :
    translate_with_google failEngine 0 (lc "a<strong>b</strong>") =
      ((preprocess_for_translation (lc "a<strong>b</strong>")).1, 3,
        [retry_delay, retry_delay]) :=
  c4_retry_fallback_amended (lc "a<strong>b</strong>") failEngine
    (fun _ _ => rfl) (by decide) (by decide)

theorem splitBy_isSome_of_isPrefixOf {pat s : List Char}
    (h : pat.isPrefixOf s = true) : (splitBy ciEq pat s).isSome = true := by
  induction pat generalizing s with
  | nil => simp [splitBy]
  | cons p ps ih =>
    cases s with
    | nil => simp [List.isPrefixOf] at h
    | cons c rest =>
      simp only [List.isPrefixOf, Bool.and_eq_true, beq_iff_eq] at h
      obtain ⟨h1, h2⟩ := h
      subst h1
      simp only [splitBy, ciEq, decide_eq_true_eq]
      rw [if_pos trivial]
      have hh := ih h2
      cases hsp : splitBy ciEq ps rest with
      | none => rw [hsp] at hh; exact absurd hh (by simp)
      | some v => rfl

theorem containsCI_of_containsL {pat s : List Char}
    (h : containsL pat s = true) : containsCI pat s = true := by
  induction s with
  | nil =>
    simp only [containsL, List.isEmpty_iff] at h
    subst h
    rfl
  | cons c rest ih =>
    simp only [containsL] at h
    simp only [containsCI]
    cases hp : pat.isPrefixOf (c :: rest) with
    | true =>
      rw [splitBy_isSome_of_isPrefixOf hp]
      simp
    | false =>
      rw [hp] at h
      simp only [if_false, Bool.false_eq_true, ite_false] at h
      simp [ih h]

theorem containsL_eq_false {pat s : List Char}
    (h : containsCI pat s = false) : containsL pat s = false := by
  cases hc : containsL pat s with
  | false => rfl
  | true => rw [containsCI_of_containsL hc] at h; exact absurd h (by simp)

theorem replaceWordGo_id {pat rep : List Char} :
    ∀ (fuel : Nat) (pw : Bool) (s : List Char), containsCI pat s = false →
    replaceWordGo ciEq pat rep fuel pw s = s := by
  intro fuel
  induction fuel with
  | zero => intro pw s _; cases s <;> rfl
  | succ n ih =>
    intro pw s h
    cases s with
    | nil => rfl
    | cons c rest =>
      simp only [containsCI] at h
      cases hsp : splitBy ciEq pat (c :: rest) with
      | some v => rw [hsp] at h; simp at h
      | none =>
        rw [hsp] at h
        simp only [Option.isSome_none, Bool.false_eq_true, if_false, ite_false] at h
        simp only [replaceWordGo, hsp]
        rw [ih (isWordCh c) rest h]

theorem replaceWordCI_id {pat rep s : List Char}
    (h : containsCI pat s = false) : replaceWordCI pat rep s = s :=
  replaceWordGo_id (strLen s) false s h

theorem replaceLGo_id {pat rep : List Char} :
    ∀ (fuel : Nat) (s : List Char), containsL pat s = false →
    replaceLGo pat rep fuel s = s := by
  intro fuel
  induction fuel with
  | zero => intro s _; cases s <;> rfl
  | succ n ih =>
    intro s h
    cases s with
    | nil => rfl
    | cons c rest =>
      simp only [containsL] at h
      cases hp : pat.isPrefixOf (c :: rest) with
      | true => rw [hp] at h; simp at h
      | false =>
        rw [hp] at h
        simp only [if_false, Bool.false_eq_true, ite_false] at h
        simp only [replaceLGo]
        rw [if_neg (by simp [hp])]
        rw [ih rest h]

theorem replaceL_id {pat rep s : List Char}
    (h : containsL pat s = false) : replaceL pat rep s = s :=
  replaceLGo_id (strLen s) s h

theorem mem_insertByLen {x y : List Char × List Char}
    {l : List (List Char × List Char)} :
    y ∈ insertByLen x l ↔ y = x ∨ y ∈ l := by
  induction l with
  | nil => simp [insertByLen]
  | cons z zs ih =>
    simp only [insertByLen]
    split
    all_goals simp only [List.mem_cons, ih]
    all_goals tauto

theorem mem_sortByLenDesc {y : List Char × List Char}
    {l : List (List Char × List Char)} :
    y ∈ sortByLenDesc l ↔ y ∈ l := by
  induction l with
  | nil => simp [sortByLenDesc]
  | cons z zs ih =>
    simp [sortByLenDesc, mem_insertByLen, ih]

theorem foldl_terms_id (l : List (List Char × List Char)) :
    ∀ s, (∀ pr ∈ l, containsCI pr.1 s = false) →
    l.foldl
      (fun acc pr =>
        if pr.1.any pyIsUpper || exactBrandList.contains pr.1 then
          replaceL pr.1 pr.2 acc
        else replaceWordCI pr.1 pr.2 acc) s = s := by
  induction l with
  | nil => intro s _; rfl
  | cons p ps ih =>
    intro s h
    have hp := h p (List.mem_cons_self p ps)
    have hstep :
        (if p.1.any pyIsUpper || exactBrandList.contains p.1 then
          replaceL p.1 p.2 s
        else replaceWordCI p.1 p.2 s) = s := by
      split
      · exact replaceL_id (containsL_eq_false hp)
      · exact replaceWordCI_id hp
    simp only [List.foldl_cons]
    rw [hstep]
    exact ih s (fun pr hpr => h pr (List.mem_cons_of_mem p hpr))

theorem apply_critical_terms_id {s : List Char}
    (h : noCriticalTermOccurs s = true) : apply_critical_terms s = s := by
  unfold apply_critical_terms
  split
  · rfl
  · apply foldl_terms_id
    intro pr hpr
    rw [mem_sortByLenDesc] at hpr
    simp only [List.mem_map] at hpr
    obtain ⟨q, hq, rfl⟩ := hpr
    have hq2 := (List.all_eq_true.mp h) q hq
    simpa using hq2

/-- C7 (amended): `apply_critical_terms` is idempotent on every string in
which no source term of the table occurs, even case-insensitively (on
such strings it is the identity).  In general it is not idempotent. -/
theorem c7_idempotence_amended (s : List Char)
    (h : noCriticalTermOccurs s = true) :
    apply_critical_terms (apply_critical_terms s) = apply_critical_terms s := by
  rw [apply_critical_terms_id h]
  exact apply_critical_terms_id h

/-- Witness for C7 (amended) at the concrete input "xyz". -/
theorem c7_idempotence_amended_witness :
    noCriticalTermOccurs (lc "xyz") = true ∧
      apply_critical_terms (apply_critical_terms (lc "xyz")) =
        apply_critical_terms (lc "xyz") :=
  ⟨by decide, c7_idempotence_amended (lc "xyz") (by decide)⟩

set_option maxHeartbeats 4000000 in
theorem lower_facts {c : Char} (h : isLowerLet c = true) :
    isUpperLet (pyToUpper c) = true ∧ isWs c = false ∧
      c ≠ '<' ∧ c ≠ '>' ∧ c ≠ '/' := by
  simp only [isLowerLet, Bool.or_eq_true] at h
  rcases h with h | h
  · simp only [isAsciiLower, Bool.and_eq_true, decide_eq_true_eq] at h
    obtain ⟨h1, h2⟩ := h
    have hb1 : 97 ≤ c.toNat := h1
    have hb2 : c.toNat ≤ 122 := h2
    have hc : c = Char.ofNat c.toNat := (Char.ofNat_toNat c).symm
    interval_cases h : c.toNat <;> subst hc <;> decide
  · have hm : c ∈ czechLowerList := List.mem_of_elem_eq_true h
    fin_cases hm <;> decide

set_option maxHeartbeats 4000000 in
theorem upper_facts {d : Char} (h : isUpperLet d = true) :
    isLowerLet d = false ∧ isWs d = false ∧
      d ≠ '<' ∧ d ≠ '>' ∧ d ≠ '/' := by
  simp only [isUpperLet, Bool.or_eq_true] at h
  rcases h with h | h
  · simp only [isAsciiUpper, Bool.and_eq_true, decide_eq_true_eq] at h
    obtain ⟨h1, h2⟩ := h
    have hb1 : 65 ≤ d.toNat := h1
    have hb2 : d.toNat ≤ 90 := h2
    have hc : d = Char.ofNat d.toNat := (Char.ofNat_toNat d).symm
    interval_cases h : d.toNat <;> subst hc <;> decide
  · have hm : d ∈ czechUpperList := List.mem_of_elem_eq_true h
    fin_cases hm <;> decide

theorem ws_facts {x : Char} (h : isWs x = true) :
    isLowerLet x = false ∧ x ≠ '<' ∧ x ≠ '>' := by
  have hx : x = ' ' ∨ x = '\t' ∨ x = '\n' ∨ x = '\r' ∨
      x = '\x0b' ∨ x = '\x0c' := by
    simpa [isWs, or_assoc] using h
  rcases hx with h | h | h | h | h | h <;> subst h <;> decide

theorem upRel_refl (s : List Char) : UpRel s s := by
  induction s with
  | nil => exact UpRel.nil
  | cons c rest ih => exact UpRel.keep c ih

theorem upRel_append_left (a : List Char) {s t : List Char}
    (h : UpRel s t) : UpRel (a ++ s) (a ++ t) := by
  induction a with
  | nil => exact h
  | cons c rest ih => exact UpRel.keep c ih

theorem afterTagUpperGo_upRel_fire (n : Nat) (rest rest2 rest3 : List Char)
    (d : Char)
    (heq : rest.dropWhile (fun x => x ≠ '>') = '>' :: rest2)
    (heq2 : rest2.dropWhile isWs = d :: rest3)
    (hd : isLowerLet d = true)
    (ih3 : UpRel rest3 (afterTagUpperGo n rest3)) :
    UpRel ('<' :: '/' :: rest)
      ('<' :: '/' :: (rest.takeWhile (fun x => x ≠ '>') ++
        '>' :: (rest2.takeWhile isWs ++
          pyToUpper d :: afterTagUpperGo n rest3))) := by
  have h5 : UpRel (rest2.dropWhile isWs)
      (pyToUpper d :: afterTagUpperGo n rest3) := by
    rw [heq2]; exact UpRel.up d hd ih3
  have h3 : UpRel rest2
      (rest2.takeWhile isWs ++ pyToUpper d :: afterTagUpperGo n rest3) := by
    have hk := upRel_append_left (rest2.takeWhile isWs) h5
    rwa [List.takeWhile_append_dropWhile] at hk
  have h2 : UpRel (rest.dropWhile (fun x => x ≠ '>'))
      ('>' :: (rest2.takeWhile isWs ++
        pyToUpper d :: afterTagUpperGo n rest3)) := by
    rw [heq]; exact UpRel.keep '>' h3
  have h1 : UpRel rest
      (rest.takeWhile (fun x => x ≠ '>') ++
        '>' :: (rest2.takeWhile isWs ++
          pyToUpper d :: afterTagUpperGo n rest3)) := by
    have hk := upRel_append_left (rest.takeWhile (fun x => x ≠ '>')) h2
    rwa [List.takeWhile_append_dropWhile] at hk
  exact UpRel.keep '<' (UpRel.keep '/' h1)

theorem afterTagUpperGo_upRel : ∀ (fuel : Nat) (s : List Char),
    UpRel s (afterTagUpperGo fuel s) := by
  intro fuel
  induction fuel with
  | zero => intro s; exact upRel_refl s
  | succ n ih =>
    intro s
    cases s with
    | nil => exact UpRel.nil
    | cons c s2 =>
      rcases s2 with _ | ⟨c2, rest⟩
      · rw [afterTagUpperGo.eq_4 n c [] (by intro r h1 h2; cases h2)]
        exact UpRel.keep c (ih [])
      · by_cases h1 : c = '<'
        · by_cases h2 : c2 = '/'
          · subst h1; subst h2
            rw [afterTagUpperGo.eq_3]
            repeat' split
            all_goals try exact UpRel.keep '<' (UpRel.keep '/' (ih rest))
            exact afterTagUpperGo_upRel_fire n rest _ _ _
              (by assumption) (by assumption) (by assumption) (ih _)
          · rw [afterTagUpperGo.eq_4 n c (c2 :: rest)
              (by intro r hc hr; injection hr with ha hb; exact h2 ha)]
            exact UpRel.keep c (ih (c2 :: rest))
        · rw [afterTagUpperGo.eq_4 n c (c2 :: rest) (fun r hc _ => h1 hc)]
          exact UpRel.keep c (ih (c2 :: rest))

theorem afterTagUpper_upRel (s : List Char) : UpRel s (afterTagUpper s) :=
  afterTagUpperGo_upRel (strLen s) s

theorem afterNewlineUpperGo_upRel_fire (n : Nat) (c d : Char)
    (rest rest2 : List Char)
    (heq2 : rest.dropWhile isWs = d :: rest2)
    (hd : isLowerLet d = true)
    (ih2 : UpRel rest2 (afterNewlineUpperGo n rest2)) :
    UpRel (c :: rest)
      (c :: (rest.takeWhile isWs ++
        pyToUpper d :: afterNewlineUpperGo n rest2)) := by
  have h5 : UpRel (rest.dropWhile isWs)
      (pyToUpper d :: afterNewlineUpperGo n rest2) := by
    rw [heq2]; exact UpRel.up d hd ih2
  have h3 : UpRel rest
      (rest.takeWhile isWs ++ pyToUpper d :: afterNewlineUpperGo n rest2) := by
    have hk := upRel_append_left (rest.takeWhile isWs) h5
    rwa [List.takeWhile_append_dropWhile] at hk
  exact UpRel.keep c h3

theorem afterNewlineUpperGo_upRel : ∀ (fuel : Nat) (s : List Char),
    UpRel s (afterNewlineUpperGo fuel s) := by
  intro fuel
  induction fuel with
  | zero => intro s; exact upRel_refl s
  | succ n ih =>
    intro s
    cases s with
    | nil => exact UpRel.nil
    | cons c rest =>
      rw [afterNewlineUpperGo.eq_3]
      repeat' split
      all_goals try exact UpRel.keep c (ih rest)
      exact afterNewlineUpperGo_upRel_fire n c _ rest _
        (by assumption) (by assumption) (ih _)

theorem afterNewlineUpper_upRel (s : List Char) :
    UpRel s (afterNewlineUpper s) :=
  afterNewlineUpperGo_upRel (strLen s) s

theorem upRel_nil_left {y : List Char} (h : UpRel [] y) : y = [] := by
  cases h; rfl

theorem upRel_cons_left {x : Char} {s y : List Char}
    (h : UpRel (x :: s) y) :
    ∃ z t, y = z :: t ∧
      (z = x ∨ (isLowerLet x = true ∧ z = pyToUpper x)) ∧ UpRel s t := by
  cases h with
  | keep t2 hrec => exact ⟨x, _, rfl, Or.inl rfl, hrec⟩
  | up t2 hlow hrec => exact ⟨pyToUpper x, _, rfl, Or.inr ⟨hlow, rfl⟩, hrec⟩

theorem upRel_cons_right {z : Char} {s t : List Char}
    (h : UpRel s (z :: t)) :
    ∃ w ws, s = w :: ws ∧
      (z = w ∨ (isLowerLet w = true ∧ z = pyToUpper w)) ∧ UpRel ws t := by
  cases s with
  | nil => exact absurd (upRel_nil_left h) (by simp)
  | cons w ws =>
    obtain ⟨z2, t2, hzt, hrel, hrest⟩ := upRel_cons_left h
    injection hzt with h1 h2
    subst h1
    subst h2
    exact ⟨w, ws, rfl, hrel, hrest⟩

theorem dropWhile_head_not {p : Char → Bool} :
    ∀ {l : List Char} {c : Char} {cs : List Char},
      l.dropWhile p = c :: cs → p c = false := by
  intro l
  induction l with
  | nil => intro c cs h; cases h
  | cons a l2 ih =>
    intro c cs h
    rw [List.dropWhile_cons] at h
    by_cases ha : p a = true
    · rw [if_pos ha] at h; exact ih h
    · rw [if_neg ha] at h
      injection h with h1 _
      subst h1
      exact Bool.eq_false_iff.mpr ha

theorem dropWhile_append_gt {b zs : List Char}
    (hb : ∀ x ∈ b, x ≠ '>') :
    (b ++ '>' :: zs).dropWhile (fun x => x ≠ '>') = '>' :: zs ∧
      (b ++ '>' :: zs).takeWhile (fun x => x ≠ '>') = b := by
  induction b with
  | nil => constructor <;> simp [List.dropWhile_cons, List.takeWhile_cons]
  | cons x b2 ih =>
    have hx : x ≠ '>' := hb x (List.mem_cons_self x b2)
    have ih2 := ih (fun y hy => hb y (List.mem_cons_of_mem x hy))
    constructor
    · rw [List.cons_append, List.dropWhile_cons, if_pos (by simpa using hx)]
      exact ih2.1
    · rw [List.cons_append, List.takeWhile_cons, if_pos (by simpa using hx)]
      rw [ih2.2]

theorem closeLowerAt_ne_lt {x : Char} {t : List Char} (hx : x ≠ '<') :
    closeLowerAt (x :: t) = false := by
  unfold closeLowerAt
  split
  · rename_i s2 rest heq
    injection heq with h1 _
    exact absurd h1 hx
  · rfl

theorem closeLowerAt_second_ne {y : Char} {t : List Char} (hy : y ≠ '/') :
    closeLowerAt ('<' :: y :: t) = false := by
  unfold closeLowerAt
  split
  · rename_i s2 rest heq
    injection heq with h1 h2
    injection h2 with h3 _
    exact absurd h3 hy
  · rfl

theorem closeLowerAt_tag_false {X : List Char}
    (h : ∀ d es, X.dropWhile (fun x => x ≠ '>') = '>' :: d :: es →
      (X.takeWhile (fun x => x ≠ '>') = [] ∨ isLowerLet d = false)) :
    closeLowerAt ('<' :: '/' :: X) = false := by
  unfold closeLowerAt
  split
  · rename_i s2 rest heq
    injection heq with h1 h2
    injection h2 with h3 h4
    subst h4
    cases hdd : X.dropWhile (fun x => x ≠ '>') with
    | nil => rfl
    | cons e es =>
      have he : e = '>' := by
        have hh := dropWhile_head_not hdd
        simpa using hh
      subst he
      cases es with
      | nil => rfl
      | cons d es2 =>
        show (decide (X.takeWhile (fun x => x ≠ '>') ≠ []) &&
          isLowerLet d) = false
        rcases h d es2 hdd with h5 | h5
        · rw [h5]; simp
        · rw [h5]; simp
  · rfl

theorem hasCloseLower_cons {c : Char} {rest : List Char}
    (h1 : closeLowerAt (c :: rest) = false)
    (h2 : hasCloseLower rest = false) :
    hasCloseLower (c :: rest) = false := by
  simp only [hasCloseLower, h1]
  simpa using h2

theorem hasCloseLower_cons_inv {c : Char} {rest : List Char}
    (hf : hasCloseLower (c :: rest) = false) :
    closeLowerAt (c :: rest) = false ∧ hasCloseLower rest = false := by
  cases hcl : closeLowerAt (c :: rest) with
  | true =>
    simp only [hasCloseLower, hcl] at hf
    simp at hf
  | false =>
    simp only [hasCloseLower, hcl] at hf
    exact ⟨rfl, by simpa using hf⟩

theorem upRel_dropGt {a b : List Char} (h : UpRel a b) :
    UpRel (a.dropWhile (fun x => x ≠ '>')) (b.dropWhile (fun x => x ≠ '>')) ∧
      (a.takeWhile (fun x => x ≠ '>') = [] ↔
        b.takeWhile (fun x => x ≠ '>') = []) := by
  induction h with
  | nil => exact ⟨UpRel.nil, Iff.rfl⟩
  | keep c hrec ih =>
    by_cases hc : c = '>'
    · subst hc
      rw [List.dropWhile_cons, List.dropWhile_cons,
        List.takeWhile_cons, List.takeWhile_cons]
      simp only [(by decide : decide (('>' : Char) ≠ '>') = false),
        Bool.false_eq_true, if_false, ite_false]
      exact ⟨UpRel.keep '>' hrec, trivial⟩
    · rw [List.dropWhile_cons, List.dropWhile_cons,
        List.takeWhile_cons, List.takeWhile_cons]
      rw [if_pos (by simpa using hc), if_pos (by simpa using hc),
        if_pos (by simpa using hc), if_pos (by simpa using hc)]
      exact ⟨ih.1, by simp⟩
  | up c hlow hrec ih =>
    have hc : c ≠ '>' := (lower_facts hlow).2.2.2.1
    have hup : pyToUpper c ≠ '>' :=
      (upper_facts (lower_facts hlow).1).2.2.2.1
    rw [List.dropWhile_cons, List.dropWhile_cons,
      List.takeWhile_cons, List.takeWhile_cons]
    rw [if_pos (by simpa using hc), if_pos (by simpa using hup),
      if_pos (by simpa using hc), if_pos (by simpa using hup)]
    exact ⟨ih.1, by simp⟩

theorem upRel_closeLowerAt {a b : List Char} (h : UpRel a b)
    (hf : closeLowerAt a = false) : closeLowerAt b = false := by
  cases h with
  | nil => rfl
  | keep c hrec =>
    rename_i s t
    by_cases hc : c = '<'
    · subst hc
      cases hrec with
      | nil => rfl
      | keep c2 hrec2 =>
        rename_i s2 t2
        by_cases hc2 : c2 = '/'
        · subst hc2
          apply closeLowerAt_tag_false
          intro d es hdd
          obtain ⟨hdw, htw⟩ := upRel_dropGt hrec2
          rw [hdd] at hdw
          obtain ⟨w, ws, hs2, hhead, hrest⟩ := upRel_cons_right hdw
          have hw : w = '>' := by
            rcases hhead with h1 | ⟨hl, h2⟩
            · exact h1.symm
            · exact absurd h2.symm
                (upper_facts (lower_facts hl).1).2.2.2.1
          subst hw
          obtain ⟨w2, ws2, hws, hhead2, hr2⟩ := upRel_cons_right hrest
          rw [hws] at hs2
          have hval : (decide (s2.takeWhile (fun x => x ≠ '>') ≠ []) &&
              isLowerLet w2) = false := by
            simp only [closeLowerAt] at hf
            rw [hs2] at hf
            exact hf
          rcases Bool.and_eq_false_iff.mp hval with h5 | h5
          · left
            exact htw.mp (by simpa using h5)
          · right
            rcases hhead2 with h6 | ⟨hl6, h6⟩
            · rw [h6]; exact h5
            · rw [hl6] at h5; cases h5
        · exact closeLowerAt_second_ne hc2
      | up c2 hlow2 hrec2 =>
        exact closeLowerAt_second_ne
          (upper_facts (lower_facts hlow2).1).2.2.2.2
    · exact closeLowerAt_ne_lt hc
  | up c hlow hrec =>
    exact closeLowerAt_ne_lt (upper_facts (lower_facts hlow).1).2.2.1

theorem upRel_hasCloseLower {a b : List Char} (h : UpRel a b)
    (hf : hasCloseLower a = false) : hasCloseLower b = false := by
  induction h with
  | nil => rfl
  | keep c hrec ih =>
    obtain ⟨h1, h2⟩ := hasCloseLower_cons_inv hf
    exact hasCloseLower_cons (upRel_closeLowerAt (UpRel.keep c hrec) h1)
      (ih h2)
  | up c hlow hrec ih =>
    obtain ⟨h1, h2⟩ := hasCloseLower_cons_inv hf
    exact hasCloseLower_cons (upRel_closeLowerAt (UpRel.up c hlow hrec) h1)
      (ih h2)

theorem strLenGo_eq : ∀ (s : List Char) (k : Nat), strLenGo k s = k + s.length := by
  intro s
  induction s with
  | nil => intro k; simp [strLenGo]
  | cons c rest ih =>
    intro k
    simp only [strLenGo, ih, List.length_cons]
    omega

theorem strLen_eq (s : List Char) : strLen s = s.length := by
  simp [strLen, strLenGo_eq]

theorem afterTagUpperGo_nil (n : Nat) : afterTagUpperGo n [] = [] := by
  cases n <;> rfl

theorem hasCloseLower_ws_append {run : List Char} {U : Char} {T : List Char}
    (hrun : ∀ x ∈ run, isWs x = true) (hU : U ≠ '<')
    (hT : hasCloseLower T = false) :
    hasCloseLower (run ++ U :: T) = false := by
  induction run with
  | nil => exact hasCloseLower_cons (closeLowerAt_ne_lt hU) hT
  | cons x xs ih =>
    have hx := ws_facts (hrun x (List.mem_cons_self x xs))
    exact hasCloseLower_cons (closeLowerAt_ne_lt hx.2.1)
      (ih (fun y hy => hrun y (List.mem_cons_of_mem x hy)))

theorem hasCloseLower_body {Z : List Char}
    (hhead : ∀ d es, Z = d :: es → isLowerLet d = false)
    (hZ : hasCloseLower ('>' :: Z) = false) :
    ∀ (b : List Char), (∀ x ∈ b, x ≠ '>') →
      hasCloseLower (b ++ '>' :: Z) = false := by
  intro b
  induction b with
  | nil => intro _; exact hZ
  | cons x b2 ih =>
    intro hb
    have hb2 : ∀ y ∈ b2, y ≠ '>' := fun y hy => hb y (List.mem_cons_of_mem x hy)
    have hcla : closeLowerAt (x :: (b2 ++ '>' :: Z)) = false := by
      by_cases hx : x = '<'
      · subst hx
        cases b2 with
        | nil => exact closeLowerAt_second_ne (by decide)
        | cons y b3 =>
          by_cases hy : y = '/'
          · subst hy
            apply closeLowerAt_tag_false
            intro d es hdd
            have hb3 : ∀ z ∈ b3, z ≠ '>' :=
              fun z hz => hb2 z (List.mem_cons_of_mem '/' hz)
            simp only [List.append_eq] at hdd ⊢
            rw [(dropWhile_append_gt hb3).1] at hdd
            injection hdd with _ h2
            exact Or.inr (hhead d es h2)
          · exact closeLowerAt_second_ne hy
      · exact closeLowerAt_ne_lt hx
    exact hasCloseLower_cons hcla (ih hb2)

theorem hasCloseLower_segment (body run T : List Char) (U : Char)
    (hb : ∀ x ∈ body, x ≠ '>') (hrun : ∀ x ∈ run, isWs x = true)
    (hU1 : isLowerLet U = false) (hU2 : U ≠ '<')
    (hT : hasCloseLower T = false) :
    hasCloseLower ('<' :: '/' :: (body ++ '>' :: (run ++ U :: T))) = false := by
  have hhead : ∀ d es, run ++ U :: T = d :: es → isLowerLet d = false := by
    intro d es hde
    cases run with
    | nil =>
      injection hde with h1 _
      rw [← h1]; exact hU1
    | cons x xs =>
      injection hde with h1 _
      rw [← h1]
      exact (ws_facts (hrun x (List.mem_cons_self x xs))).1
  have hZ : hasCloseLower ('>' :: (run ++ U :: T)) = false :=
    hasCloseLower_cons (closeLowerAt_ne_lt (by decide))
      (hasCloseLower_ws_append hrun hU2 hT)
  have hbody := hasCloseLower_body hhead hZ body hb
  have hc1 : closeLowerAt ('<' :: '/' ::
      (body ++ '>' :: (run ++ U :: T))) = false := by
    apply closeLowerAt_tag_false
    intro d es hdd
    rw [(dropWhile_append_gt hb).1] at hdd
    injection hdd with _ h2
    exact Or.inr (hhead d es h2)
  exact hasCloseLower_cons hc1
    (hasCloseLower_cons (closeLowerAt_ne_lt (by decide)) hbody)

theorem noClose_tagFront {rest X : List Char}
    (hrel : UpRel rest X)
    (hX : hasCloseLower X = false)
    (hsafe : ∀ d es, rest.dropWhile (fun x => x ≠ '>') = '>' :: d :: es →
      rest.takeWhile (fun x => x ≠ '>') = [] ∨ isLowerLet d = false) :
    hasCloseLower ('<' :: '/' :: X) = false := by
  have hc1 : closeLowerAt ('<' :: '/' :: X) = false := by
    apply closeLowerAt_tag_false
    intro d es hdd
    obtain ⟨hdw, htw⟩ := upRel_dropGt hrel
    rw [hdd] at hdw
    obtain ⟨w, ws, hsw, hhead, hrest⟩ := upRel_cons_right hdw
    have hw : w = '>' := by
      rcases hhead with h1 | ⟨hl, h2⟩
      · exact h1.symm
      · exact absurd h2.symm (upper_facts (lower_facts hl).1).2.2.2.1
    subst hw
    obtain ⟨w2, ws2, hws, hhead2, hr2⟩ := upRel_cons_right hrest
    rw [hws] at hsw
    rcases hsafe w2 ws2 hsw with h5 | h5
    · left; exact htw.mp h5
    · right
      rcases hhead2 with h6 | ⟨hl6, h6⟩
      · rw [h6]; exact h5
      · rw [hl6] at h5; cases h5
  exact hasCloseLower_cons hc1
    (hasCloseLower_cons (closeLowerAt_ne_lt (by decide)) hX)

theorem closeLowerAt_single (c : Char) : closeLowerAt [c] = false := by
  unfold closeLowerAt
  split
  · rename_i s2 rest heq
    injection heq with _ h2
    cases h2
  · rfl

theorem afterTagUpperGo_noClose : ∀ (fuel : Nat) (s : List Char),
    s.length ≤ fuel → hasCloseLower (afterTagUpperGo fuel s) = false := by
  intro fuel
  induction fuel with
  | zero =>
    intro s hs
    have hnil : s = [] := List.length_eq_zero.mp (Nat.le_zero.mp hs)
    subst hnil
    rfl
  | succ n ih =>
    intro s hs
    cases s with
    | nil => rfl
    | cons c s2 =>
      rcases s2 with _ | ⟨c2, rest⟩
      · rw [afterTagUpperGo.eq_4 n c [] (by intro r h1 h2; cases h2)]
        rw [afterTagUpperGo_nil]
        exact hasCloseLower_cons (closeLowerAt_single c) rfl
      · have hlen : (c2 :: rest).length ≤ n := by
          simp only [List.length_cons] at hs ⊢
          omega
        have hlenr : rest.length ≤ n := by
          simp only [List.length_cons] at hlen
          omega
        by_cases h1 : c = '<'
        · by_cases h2 : c2 = '/'
          · subst h1; subst h2
            have hX := ih rest hlenr
            have hrel := afterTagUpperGo_upRel n rest
            rw [afterTagUpperGo.eq_3]
            split
            · rename_i rest2 heq
              split
              · rename_i hbody
                split
                · rename_i d rest3 heq2
                  split
                  · rename_i hd
                    apply hasCloseLower_segment
                    · intro x hx
                      simpa using List.mem_takeWhile_imp hx
                    · intro x hx
                      exact List.mem_takeWhile_imp hx
                    · exact (upper_facts (lower_facts hd).1).1
                    · exact (upper_facts (lower_facts hd).1).2.2.1
                    · apply ih
                      have l1 := dropWhile_len_le (fun x => x ≠ '>') rest
                      rw [heq] at l1
                      have l2 := dropWhile_len_le isWs rest2
                      rw [heq2] at l2
                      simp only [List.length_cons] at l1 l2
                      omega
                  · rename_i hd
                    apply noClose_tagFront hrel hX
                    intro d2 es hdd
                    rw [heq] at hdd
                    injection hdd with _ h4
                    right
                    cases hw : isWs d2 with
                    | true => exact (ws_facts hw).1
                    | false =>
                      rw [h4, List.dropWhile_cons, hw] at heq2
                      simp only [Bool.false_eq_true, if_false,
                        ite_false] at heq2
                      injection heq2 with h5 _
                      rw [h5]
                      simpa using hd
                · rename_i heq2
                  apply noClose_tagFront hrel hX
                  intro d2 es hdd
                  rw [heq] at hdd
                  injection hdd with _ h4
                  right
                  have hall := List.dropWhile_eq_nil_iff.mp heq2
                  have hmem : d2 ∈ rest2 := by
                    rw [h4]; exact List.mem_cons_self d2 es
                  exact (ws_facts (hall d2 hmem)).1
              · rename_i hbody
                apply noClose_tagFront hrel hX
                intro d2 es hdd
                left
                exact not_not.mp hbody
            · rename_i x hshape
              apply noClose_tagFront hrel hX
              intro d2 es hdd
              exact (hshape (d2 :: es) hdd).elim
          · rw [afterTagUpperGo.eq_4 n c (c2 :: rest)
              (by intro r hc hr; injection hr with ha hb; exact h2 ha)]
            subst h1
            obtain ⟨z, t2, hzt, hhead, _⟩ :=
              upRel_cons_left (afterTagUpperGo_upRel n (c2 :: rest))
            have hz : z ≠ '/' := by
              rcases hhead with h3 | ⟨hl, h3⟩
              · rw [h3]; exact h2
              · rw [h3]
                exact (upper_facts (lower_facts hl).1).2.2.2.2
            rw [hzt]
            exact hasCloseLower_cons (closeLowerAt_second_ne hz)
              (hzt ▸ ih (c2 :: rest) hlen)
        · rw [afterTagUpperGo.eq_4 n c (c2 :: rest) (fun r hc _ => h1 hc)]
          exact hasCloseLower_cons (closeLowerAt_ne_lt h1)
            (ih (c2 :: rest) hlen)

theorem afterTagUpper_noClose (s : List Char) :
    hasCloseLower (afterTagUpper s) = false := by
  apply afterTagUpperGo_noClose
  rw [strLen_eq]

/-- C10 (amended): whatever the input, after `fix_capitalization` no
closing tag (`</`, one or more non-`>` characters, `>`) is immediately
followed by a lowercase letter — the after-closing-tag rule (whose
whitespace is optional) and the line-break rule leave no glued lowercase
letter behind any closing tag.  The claim's concrete example is wrong
only in that the sentence-initial pass also rewrites the tag itself
("</strong>v" becomes "</Strong>V", not "</strong>V"). -/
theorem c10_after_tag_amended (s : List Char) :
    hasCloseLower (fix_capitalization s) = false := by
  unfold fix_capitalization
  split
  · rename_i hnil
    rw [hnil]
    rfl
  · exact upRel_hasCloseLower (afterNewlineUpper_upRel _)
      (afterTagUpper_noClose _)

theorem containsL_single_false {a : Char} {s : List Char}
    (h : containsL [a] s = false) : ∀ x ∈ s, x ≠ a := by
  induction s with
  | nil => intro x hx; cases hx
  | cons c rest ih =>
    simp only [containsL] at h
    cases hp : List.isPrefixOf [a] (c :: rest) with
    | true => rw [hp] at h; simp at h
    | false =>
      rw [hp] at h
      simp only [Bool.false_eq_true, if_false, ite_false] at h
      intro x hx
      rcases List.mem_cons.mp hx with h2 | h2
      · subst h2
        intro hax
        subst hax
        simp [List.isPrefixOf] at hp
      · exact ih h x h2

theorem matchOpen_none_head {names : List (List Char)} {s : List Char}
    (h : ∀ x ∈ s, x ≠ '<') : matchOpen names s = none := by
  cases s with
  | nil => rfl
  | cons c rest =>
    have hc : c ≠ '<' := h c (List.mem_cons_self c rest)
    unfold matchOpen
    split
    · rename_i rest2 heq
      injection heq with h1 _
      exact absurd h1 hc
    · rfl

theorem closeAt_none_head {names : List (List Char)} {s : List Char}
    (h : ∀ x ∈ s, x ≠ '<') : closeAt names s = none := by
  cases s with
  | nil => rfl
  | cons c rest =>
    have hc : c ≠ '<' := h c (List.mem_cons_self c rest)
    unfold closeAt
    split
    · rename_i rest2 heq
      injection heq with h1 _
      exact absurd h1 hc
    · rfl

theorem fixBeforeOpenGo_id {cls : Char → Bool} {names : List (List Char)} :
    ∀ (fuel : Nat) (s : List Char), (∀ x ∈ s, x ≠ '<') →
      fixBeforeOpenGo cls names fuel s = s := by
  intro fuel
  induction fuel with
  | zero => intro s _; rfl
  | succ n ih =>
    intro s h
    cases s with
    | nil => rfl
    | cons c rest =>
      have htail : ∀ x ∈ rest, x ≠ '<' :=
        fun x hx => h x (List.mem_cons_of_mem c hx)
      have hmo : matchOpen names rest = none := matchOpen_none_head htail
      simp only [fixBeforeOpenGo, hmo]
      split <;> rw [ih rest htail]

theorem fixBeforeOpen_id {cls : Char → Bool} {names : List (List Char)}
    {s : List Char} (h : ∀ x ∈ s, x ≠ '<') :
    fixBeforeOpen cls names s = s :=
  fixBeforeOpenGo_id (strLen s) s h

theorem fixAfterCloseGo_id {names : List (List Char)} {cls : Char → Bool} :
    ∀ (fuel : Nat) (s : List Char), (∀ x ∈ s, x ≠ '<') →
      fixAfterCloseGo names cls fuel s = s := by
  intro fuel
  induction fuel with
  | zero => intro s _; rfl
  | succ n ih =>
    intro s h
    cases s with
    | nil => rfl
    | cons c rest =>
      have htail : ∀ x ∈ rest, x ≠ '<' :=
        fun x hx => h x (List.mem_cons_of_mem c hx)
      have hca : closeAt names (c :: rest) = none := closeAt_none_head h
      simp only [fixAfterCloseGo, hca]
      rw [ih rest htail]

theorem fixAfterClose_id {names : List (List Char)} {cls : Char → Bool}
    {s : List Char} (h : ∀ x ∈ s, x ≠ '<') :
    fixAfterClose names cls s = s :=
  fixAfterCloseGo_id (strLen s) s h

theorem fixWordTagGo_id {word : List Char} {names : List (List Char)} :
    ∀ (fuel : Nat) (pw : Bool) (s : List Char), (∀ x ∈ s, x ≠ '<') →
      fixWordTagGo word names fuel pw s = s := by
  intro fuel
  induction fuel with
  | zero => intro pw s _; rfl
  | succ n ih =>
    intro pw s h
    cases s with
    | nil => rfl
    | cons c rest =>
      have htail : ∀ x ∈ rest, x ≠ '<' :=
        fun x hx => h x (List.mem_cons_of_mem c hx)
      have hmo : matchOpen names ((c :: rest).drop word.length) = none :=
        matchOpen_none_head (fun x hx => h x (List.mem_of_mem_drop hx))
      simp only [fixWordTagGo, hmo]
      split <;> rw [ih (isWordCh c) rest htail]

theorem fixWordTag_id {word : List Char} {names : List (List Char)}
    {s : List Char} (h : ∀ x ∈ s, x ≠ '<') :
    fixWordTag word names s = s :=
  fixWordTagGo_id (strLen s) false s h

theorem fixBeforeLitGo_id {cls : Char → Bool} {lt : List Char} :
    ∀ (fuel : Nat) (s : List Char), (∀ x ∈ s, x ≠ '<') →
      fixBeforeLitGo cls ('<' :: lt) fuel s = s := by
  intro fuel
  induction fuel with
  | zero => intro s _; rfl
  | succ n ih =>
    intro s h
    cases s with
    | nil => rfl
    | cons c rest =>
      have htail : ∀ x ∈ rest, x ≠ '<' :=
        fun x hx => h x (List.mem_cons_of_mem c hx)
      have hp : List.isPrefixOf ('<' :: lt) rest = false := by
        cases rest with
        | nil => rfl
        | cons d r2 =>
          have hd : d ≠ '<' := htail d (List.mem_cons_self d r2)
          simp only [List.isPrefixOf, Bool.and_eq_false_iff]
          left
          simpa using fun hh => hd hh.symm
      simp only [fixBeforeLitGo]
      rw [if_neg (by simp [hp])]
      rw [ih rest htail]

theorem fixBeforeLit_id {cls : Char → Bool} {lt : List Char}
    {s : List Char} (h : ∀ x ∈ s, x ≠ '<') :
    fixBeforeLit cls ('<' :: lt) s = s :=
  fixBeforeLitGo_id (strLen s) s h

theorem fixAfterLitGo_id {cls : Char → Bool} {lt : List Char} :
    ∀ (fuel : Nat) (s : List Char), (∀ x ∈ s, x ≠ '<') →
      fixAfterLitGo ('<' :: lt) cls fuel s = s := by
  intro fuel
  induction fuel with
  | zero => intro s _; rfl
  | succ n ih =>
    intro s h
    cases s with
    | nil => rfl
    | cons c rest =>
      have htail : ∀ x ∈ rest, x ≠ '<' :=
        fun x hx => h x (List.mem_cons_of_mem c hx)
      have hc : c ≠ '<' := h c (List.mem_cons_self c rest)
      have hp : List.isPrefixOf ('<' :: lt) (c :: rest) = false := by
        simp only [List.isPrefixOf, Bool.and_eq_false_iff]
        left
        simpa using fun hh => hc hh.symm
      simp only [fixAfterLitGo]
      rw [if_neg (by simp [hp])]
      rw [ih rest htail]

theorem fixAfterLit_id {cls : Char → Bool} {lt : List Char}
    {s : List Char} (h : ∀ x ∈ s, x ≠ '<') :
    fixAfterLit ('<' :: lt) cls s = s :=
  fixAfterLitGo_id (strLen s) s h

theorem containsL_false_of_mem {a : Char} {pat s : List Char}
    (ha : a ∈ pat) (h : ∀ x ∈ s, x ≠ a) : containsL pat s = false := by
  induction s with
  | nil =>
    cases pat with
    | nil => cases ha
    | cons p ps => rfl
  | cons c rest ih =>
    simp only [containsL]
    cases hp : pat.isPrefixOf (c :: rest) with
    | true =>
      have hmem : a ∈ c :: rest :=
        (List.isPrefixOf_iff_prefix.mp hp).subset ha
      exact absurd rfl (h a hmem)
    | false =>
      simp only [Bool.false_eq_true, if_false, ite_false]
      exact ih (fun x hx => h x (List.mem_cons_of_mem c hx))

theorem collapseSpacesGo_id :
    ∀ (fuel : Nat) (s : List Char), hasTwoSpaces s = false →
      collapseSpacesGo fuel s = s := by
  intro fuel
  induction fuel with
  | zero => intro s _; rfl
  | succ n ih =>
    intro s h
    match s with
    | [] => rfl
    | [c] => rfl
    | c :: d :: rest =>
      simp only [hasTwoSpaces, Bool.or_eq_false_iff,
        Bool.and_eq_false_iff, decide_eq_false_iff_not] at h
      simp only [collapseSpacesGo]
      rw [if_neg (by tauto)]
      rw [ih (d :: rest) h.2]

theorem collapseSpaces_id {s : List Char} (h : hasTwoSpaces s = false) :
    collapseSpaces s = s :=
  collapseSpacesGo_id (strLen s) s h

theorem collapseWsGo_id :
    ∀ (fuel : Nat) (s : List Char), hasTwoWs s = false →
      collapseWsGo fuel s = s := by
  intro fuel
  induction fuel with
  | zero => intro s _; rfl
  | succ n ih =>
    intro s h
    match s with
    | [] => rfl
    | [c] => rfl
    | c :: d :: rest =>
      simp only [hasTwoWs, Bool.or_eq_false_iff,
        Bool.and_eq_false_iff] at h
      simp only [collapseWsGo]
      rw [if_neg (by
        intro hcd
        rcases h.1 with h1 | h1
        · rw [hcd.1] at h1; cases h1
        · rw [hcd.2] at h1; cases h1)]
      rw [ih (d :: rest) h.2]

theorem collapseWs_id {s : List Char} (h : hasTwoWs s = false) :
    collapseWs s = s :=
  collapseWsGo_id (strLen s) s h

theorem twoSpaces_of_twoWs :
    ∀ (s : List Char), hasTwoWs s = false → hasTwoSpaces s = false
  | [] => fun _ => rfl
  | [c] => fun _ => rfl
  | c :: d :: rest => fun h => by
    simp only [hasTwoWs, Bool.or_eq_false_iff, Bool.and_eq_false_iff] at h
    simp only [hasTwoSpaces, Bool.or_eq_false_iff, Bool.and_eq_false_iff,
      decide_eq_false_iff_not]
    constructor
    · rcases h.1 with h1 | h1
      · left
        intro hc
        rw [hc] at h1
        simp [isWs] at h1
      · right
        intro hd
        rw [hd] at h1
        simp [isWs] at h1
    · exact twoSpaces_of_twoWs (d :: rest) h.2

theorem camelSplitGo_id :
    ∀ (fuel : Nat) (s : List Char), hasCamelFireGo fuel s = false →
      camelSplitGo fuel s = s := by
  intro fuel
  induction fuel with
  | zero => intro s _; rfl
  | succ n ih =>
    intro s h
    cases s with
    | nil => rfl
    | cons c rest =>
      simp only [camelSplitGo]
      simp only [hasCamelFireGo] at h
      cases hc : isLowerLet c with
      | false =>
        rw [hc] at h
        simp only [Bool.false_eq_true, if_false, ite_false] at h ⊢
        rw [ih rest h]
      | true =>
        rw [hc] at h
        simp only [if_true] at h ⊢
        generalize hdw : (c :: rest).dropWhile isLowerLet = dw at h ⊢
        cases dw with
        | nil =>
          have h2 := List.takeWhile_append_dropWhile isLowerLet (c :: rest)
          rw [hdw, List.append_nil] at h2
          exact h2
        | cons u rest3 =>
          have h3 : (if 2 ≤ (List.takeWhile isLowerLet (c :: rest)).length ∧
              isUpperLet u = true ∧ ¬ protectedAfter rest3 = true then true
            else hasCamelFireGo n (u :: rest3)) = false := h
          show (if 2 ≤ (List.takeWhile isLowerLet (c :: rest)).length ∧
              isUpperLet u = true ∧ ¬ protectedAfter rest3 = true then
              List.takeWhile isLowerLet (c :: rest) ++
                ' ' :: u :: camelSplitGo n rest3
            else List.takeWhile isLowerLet (c :: rest) ++
              camelSplitGo n (u :: rest3)) = c :: rest
          by_cases hcond : 2 ≤ (List.takeWhile isLowerLet (c :: rest)).length ∧
              isUpperLet u = true ∧ ¬ protectedAfter rest3 = true
          · rw [if_pos hcond] at h3
            cases h3
          · rw [if_neg hcond] at h3
            rw [if_neg hcond]
            rw [ih _ h3]
            have h2 := List.takeWhile_append_dropWhile isLowerLet (c :: rest)
            rw [hdw] at h2
            exact h2

theorem camelSplit_id {s : List Char} (h : hasCamelFire s = false) :
    camelSplit s = s :=
  camelSplitGo_id (strLen s) s h

theorem foldl_fixBeforeOpen_id {cls : Char → Bool} :
    ∀ (ts : List (List Char)) (s : List Char), (∀ x ∈ s, x ≠ '<') →
      ts.foldl (fun acc tag => fixBeforeOpen cls [tag] acc) s = s := by
  intro ts
  induction ts with
  | nil => intro s _; rfl
  | cons t ts2 ih =>
    intro s h
    simp only [List.foldl_cons]
    rw [fixBeforeOpen_id h]
    exact ih s h

theorem foldl_fixAfterClose_id {cls : Char → Bool} :
    ∀ (ts : List (List Char)) (s : List Char), (∀ x ∈ s, x ≠ '<') →
      ts.foldl (fun acc tag => fixAfterClose [tag] cls acc) s = s := by
  intro ts
  induction ts with
  | nil => intro s _; rfl
  | cons t ts2 ih =>
    intro s h
    simp only [List.foldl_cons]
    rw [fixAfterClose_id h]
    exact ih s h

theorem foldl_wordTag_inner_id {w : List Char} :
    ∀ (ts : List (List Char)) (s : List Char), (∀ x ∈ s, x ≠ '<') →
      ts.foldl (fun acc2 tag => fixWordTag w [tag] acc2) s = s := by
  intro ts
  induction ts with
  | nil => intro s _; rfl
  | cons t ts2 ih =>
    intro s h
    simp only [List.foldl_cons]
    rw [fixWordTag_id h]
    exact ih s h

theorem foldl_wordTag_id :
    ∀ (ws : List String) (s : List Char), (∀ x ∈ s, x ≠ '<') →
      ws.foldl (fun acc w => tagNames.foldl
        (fun acc2 tag => fixWordTag w.data [tag] acc2) acc) s = s := by
  intro ws
  induction ws with
  | nil => intro s _; rfl
  | cons w ws2 ih =>
    intro s h
    simp only [List.foldl_cons]
    rw [foldl_wordTag_inner_id tagNames s h]
    exact ih s h

theorem foldl_brand_id :
    ∀ (l : List (String × String)) (s : List Char),
      (∀ p ∈ l, containsL p.1.data s = false) →
      l.foldl (fun acc pr => replaceL pr.1.data pr.2.data acc) s = s := by
  intro l
  induction l with
  | nil => intro s _; rfl
  | cons p ps ih =>
    intro s h
    simp only [List.foldl_cons]
    rw [replaceL_id (h p (List.mem_cons_self p ps))]
    exact ih s (fun q hq => h q (List.mem_cons_of_mem p hq))

theorem foldl_prep_id :
    ∀ (l : List String) (s : List Char), (∀ x ∈ s, x ≠ '<') →
      l.foldl (fun acc w =>
        replaceL (w.data ++ lc "<em>") (w.data ++ ' ' :: lc "<em>")
          (replaceL (w.data ++ lc "<strong>")
            (w.data ++ ' ' :: lc "<strong>") acc)) s = s := by
  intro l
  induction l with
  | nil => intro s _; rfl
  | cons w ws ih =>
    intro s h
    simp only [List.foldl_cons]
    rw [replaceL_id (containsL_false_of_mem
      (List.mem_append_right w.data (by decide : '<' ∈ lc "<strong>")) h)]
    rw [replaceL_id (containsL_false_of_mem
      (List.mem_append_right w.data (by decide : '<' ∈ lc "<em>")) h)]
    exact ih s h

theorem applyBeforePairs_id {ws : List String} {tg : List Char}
    {s : List Char} (h : ∀ x ∈ s, x ≠ '<') :
    applyBeforePairs ws ('<' :: tg) s = s := by
  unfold applyBeforePairs
  induction ws with
  | nil => rfl
  | cons w ws2 ih =>
    simp only [List.foldl_cons]
    rw [replaceL_id (containsL_false_of_mem
      (List.mem_append_right w.data (List.mem_cons_self '<' tg)) h)]
    exact ih

theorem applyAfterPairs_id {ws : List String} {tg : List Char}
    {s : List Char} (h : ∀ x ∈ s, x ≠ '<') :
    applyAfterPairs ('<' :: tg) ws s = s := by
  unfold applyAfterPairs
  induction ws with
  | nil => rfl
  | cons w ws2 ih =>
    simp only [List.foldl_cons]
    rw [replaceL_id (containsL_false_of_mem
      (List.mem_append_left w.data (List.mem_cons_self '<' tg)) h)]
    exact ih

theorem fix_html_spacing_id {s : List Char}
    (h1 : ∀ x ∈ s, x ≠ '<') (h2 : hasTwoSpaces s = false)
    (h3 : hasCamelFire s = false)
    (h4 : ∀ p ∈ brand_fixes, containsL p.1.data s = false) :
    fix_html_spacing s = s := by
  unfold fix_html_spacing
  split
  · rfl
  · show brand_fixes.foldl (fun acc pr => replaceL pr.1.data pr.2.data acc)
      (collapseSpaces (camelSplit (czech_words.foldl
        (fun acc w => tagNames.foldl
          (fun acc2 tag => fixWordTag w.data [tag] acc2) acc)
        (fixBeforeOpen punctCls tagNames (tagNames.foldl
          (fun acc tag => fixAfterClose [tag] (fun c => isWordCh c) acc)
          (tagNames.foldl
            (fun acc tag => fixBeforeOpen phase1Cls [tag] acc) s)))))) = s
    rw [foldl_fixBeforeOpen_id tagNames s h1]
    rw [foldl_fixAfterClose_id tagNames s h1]
    rw [fixBeforeOpen_id h1]
    rw [foldl_wordTag_id czech_words s h1]
    rw [camelSplit_id h3]
    rw [collapseSpaces_id h2]
    exact foldl_brand_id brand_fixes s h4

theorem post_translation_spacing_fix_id {s : List Char}
    (h1 : ∀ x ∈ s, x ≠ '<') (h2 : hasTwoSpaces s = false) :
    post_translation_spacing_fix s = s := by
  unfold post_translation_spacing_fix
  split
  · rfl
  · show collapseSpaces (fixAfterClose [lc "em"] cls7b
      (fixBeforeOpen cls7a [lc "em"] (fixAfterClose [lc "strong"] cls7b
        (fixBeforeOpen cls7a [lc "strong"] (fixAfterClose tagNames phase6Cls
          (fixBeforeOpen isSentP tagNames (czech_prepositions.foldl
            (fun acc w =>
              replaceL (w.data ++ lc "<em>") (w.data ++ ' ' :: lc "<em>")
                (replaceL (w.data ++ lc "<strong>")
                  (w.data ++ ' ' :: lc "<strong>") acc))
            (fixBeforeOpen punctCls tagNames
              (fixAfterClose tagNames (fun c => isWordCh c)
                (fixBeforeOpen (fun c => isWordCh c) tagNames s)))))))))) = s
    rw [fixBeforeOpen_id h1]
    rw [fixAfterClose_id h1]
    rw [fixBeforeOpen_id h1]
    rw [foldl_prep_id czech_prepositions s h1]
    rw [fixBeforeOpen_id h1]
    rw [fixAfterClose_id h1]
    rw [fixBeforeOpen_id h1]
    rw [fixAfterClose_id h1]
    rw [fixBeforeOpen_id h1]
    rw [fixAfterClose_id h1]
    exact collapseSpaces_id h2

theorem force_strong_tag_spacing_id {s : List Char}
    (h1 : ∀ x ∈ s, x ≠ '<') (h2 : hasTwoWs s = false) :
    force_strong_tag_spacing s = s := by
  unfold force_strong_tag_spacing
  split
  · rfl
  · show collapseWs (fixAfterLit (lc "</strong>") czechCls
      (fixBeforeLit czechCls (lc "<strong")
        (applyAfterPairs (lc "</strong>") fsp_after
          (applyBeforePairs fsp_words (lc "<strong>")
            (fixAfterLit (lc "</strong>") nonSpaceCls
              (fixBeforeLit nonSpaceCls (lc "<strong") s)))))) = s
    rw [show lc "<strong" = '<' :: lc "strong" from rfl]
    rw [show lc "</strong>" = '<' :: lc "/strong>" from rfl]
    rw [show lc "<strong>" = '<' :: lc "strong>" from rfl]
    rw [fixBeforeLit_id h1]
    rw [fixAfterLit_id h1]
    rw [applyBeforePairs_id h1]
    rw [applyAfterPairs_id h1]
    rw [fixBeforeLit_id h1]
    rw [fixAfterLit_id h1]
    exact collapseWs_id h2

theorem reconcile_id {s : List Char} (h : spacingNormal s = true) :
    reconcile s = s := by
  have hsp : ∀ (a b : Bool), (a && b) = true → a = true ∧ b = true :=
    fun a b hab => Bool.and_eq_true_iff.mp hab
  unfold spacingNormal at h
  obtain ⟨h123, h4⟩ := hsp _ _ h
  obtain ⟨h12, h3⟩ := hsp _ _ h123
  obtain ⟨h1, h2⟩ := hsp _ _ h12
  have h1w : ∀ x ∈ s, x ≠ '<' :=
    containsL_single_false (by simpa using h1)
  have h2w : hasTwoWs s = false := by simpa using h2
  have h3w : hasCamelFire s = false := by simpa using h3
  have h4w : ∀ p ∈ brand_fixes, containsL p.1.data s = false := by
    intro p hp
    have := (List.all_eq_true.mp h4) p hp
    simpa using this
  have h2sp : hasTwoSpaces s = false := twoSpaces_of_twoWs s h2w
  unfold reconcile
  rw [fix_html_spacing_id h1w h2sp h3w h4w]
  rw [post_translation_spacing_fix_id h1w h2sp]
  exact force_strong_tag_spacing_id h1w h2w

/-- C2 (amended): the spacing-repair sequence (`fix_html_spacing`, then
`post_translation_spacing_fix`, then `force_strong_tag_spacing`) is
idempotent on every string in spacing normal form — no `<`, no adjacent
whitespace pair, no camel-case-split site and no `brand_fixes` source
substring; on such strings it is the identity.  In general it is not
idempotent. -/
theorem c2_idempotence_amended (s : List Char)
    (h : spacingNormal s = true) :
    reconcile (reconcile s) = reconcile s := by
  rw [reconcile_id h]
  exact reconcile_id h

set_option maxRecDepth 2000 in
/-- Witness for C2 (amended) at the concrete input "ahoj svete". -/
theorem c2_idempotence_amended_witness :
    spacingNormal (lc "ahoj svete") = true ∧
      reconcile (reconcile (lc "ahoj svete")) = reconcile (lc "ahoj svete") :=
  ⟨by decide, c2_idempotence_amended (lc "ahoj svete") (by decide)⟩

theorem matchTag_none_head {c : Char} {rest : List Char} (hc : c ≠ '<') :
    matchTag (c :: rest) = none := by
  unfold matchTag
  split
  · rename_i rest2 heq
    injection heq with h1 _
    exact absurd h1 hc
  · rename_i rest2 heq
    injection heq with h1 _
    exact absurd h1 hc
  · rfl

theorem shieldGo_nil (fuel n : Nat) : shieldGo fuel [] n = ([], []) := by
  cases fuel <;> rfl

theorem shieldGo_noLt :
    ∀ (fuel : Nat) (s : List Char) (n : Nat), (∀ x ∈ s, x ≠ '<') →
      shieldGo fuel s n = (s, []) := by
  intro fuel
  induction fuel with
  | zero => intro s n _; rfl
  | succ f ih =>
    intro s n h
    cases s with
    | nil => rfl
    | cons c rest =>
      have hmt : matchTag (c :: rest) = none :=
        matchTag_none_head (h c (List.mem_cons_self c rest))
      simp only [shieldGo, hmt]
      rw [ih rest n (fun x hx => h x (List.mem_cons_of_mem c hx))]

theorem shieldGo_step_match {c : Char} {rest tag rest2 : List Char}
    {fuel n : Nat} (h : matchTag (c :: rest) = some (tag, rest2)) :
    shieldGo (fuel + 1) (c :: rest) n =
      (' ' :: (placeholder n ++ ' ' :: (shieldGo fuel rest2 (n + 1)).1),
        (placeholder n, tag) :: (shieldGo fuel rest2 (n + 1)).2) := by
  simp only [shieldGo, h]

theorem shieldGo_skip :
    ∀ (mid : List Char) (fuel n : Nat) (t : List Char),
      (∀ x ∈ mid, x ≠ '<') →
      shieldGo (mid.length + fuel) (mid ++ t) n =
        (mid ++ (shieldGo fuel t n).1, (shieldGo fuel t n).2) := by
  intro mid
  induction mid with
  | nil =>
    intro fuel n t _
    simp only [List.length_nil, Nat.zero_add, List.nil_append]
  | cons x xs ih =>
    intro fuel n t h
    have hx : x ≠ '<' := h x (List.mem_cons_self x xs)
    have hmt : matchTag (x :: (xs ++ t)) = none := matchTag_none_head hx
    have harith : (x :: xs).length + fuel = (xs.length + fuel) + 1 := by
      simp only [List.length_cons]
      omega
    rw [harith, List.cons_append]
    simp only [shieldGo, hmt]
    rw [ih fuel n t (fun y hy => h y (List.mem_cons_of_mem x hy))]
    rfl

theorem sentSplitGo_noP :
    ∀ (fuel : Nat) (acc s : List Char), s.length ≤ fuel →
      (∀ x ∈ s, isSentP x = false) →
      sentSplitGo fuel acc s = [acc.reverse ++ s] := by
  intro fuel
  induction fuel with
  | zero =>
    intro acc s hs _
    have : s = [] := List.length_eq_zero.mp (Nat.le_zero.mp hs)
    subst this
    rfl
  | succ f ih =>
    intro acc s hs h
    cases s with
    | nil => simp [sentSplitGo]
    | cons c rest =>
      have hc : isSentP c = false := h c (List.mem_cons_self c rest)
      simp only [sentSplitGo, hc, Bool.false_eq_true, if_false, ite_false]
      rw [ih (c :: acc) rest
        (by simp only [List.length_cons] at hs; omega)
        (fun x hx => h x (List.mem_cons_of_mem c hx))]
      simp

theorem hasTwoSpaces_cons {c d : Char} {rest : List Char}
    (h1 : ¬ (c = ' ' ∧ d = ' '))
    (h2 : hasTwoSpaces (d :: rest) = false) :
    hasTwoSpaces (c :: d :: rest) = false := by
  simp only [hasTwoSpaces, Bool.or_eq_false_iff, Bool.and_eq_false_iff,
    decide_eq_false_iff_not]
  exact ⟨by tauto, h2⟩

theorem hasTwoSpaces_mid_append :
    ∀ (mid : List Char) (t : List Char), (∀ x ∈ mid, ¬ x = ' ') →
      hasTwoSpaces t = false → hasTwoSpaces (mid ++ t) = false := by
  intro mid
  induction mid with
  | nil => intro t _ ht; exact ht
  | cons x xs ih =>
    intro t h ht
    have hx : ¬ x = ' ' := h x (List.mem_cons_self x xs)
    have hxs := ih t (fun y hy => h y (List.mem_cons_of_mem x hy)) ht
    rw [List.cons_append]
    cases hrest : xs ++ t with
    | nil => rfl
    | cons d r2 =>
      rw [← hrest]
      rw [hrest]
      exact hasTwoSpaces_cons (by tauto) (hrest ▸ hxs)

theorem containsL_here {pat t : List Char} (h : pat ≠ []) :
    containsL pat (pat ++ t) = true := by
  cases pat with
  | nil => exact absurd rfl h
  | cons p ps =>
    simp only [containsL]
    rw [if_pos ?hp]
    case hp =>
      exact List.isPrefixOf_iff_prefix.mpr (List.prefix_append (p :: ps) t)

theorem containsL_tail {pat : List Char} {c : Char} {rest : List Char}
    (h : containsL pat rest = true) : containsL pat (c :: rest) = true := by
  simp only [containsL]
  split
  · rfl
  · exact h

theorem c3S_mem {x : Char} (hx : x ∈ c3S) :
    x = ' ' ∨ x ∈ placeholder 0 ∨ x ∈ placeholder 1 ∨ x = 'a' := by
  simp only [c3S, List.mem_cons, List.mem_append, List.mem_replicate,
    List.mem_singleton] at hx
  tauto

theorem c3S_no_lt : ∀ x ∈ c3S, x ≠ '<' := by
  intro x hx
  have hph0 : ∀ y ∈ placeholder 0, y ≠ '<' := by decide
  have hph1 : ∀ y ∈ placeholder 1, y ≠ '<' := by decide
  rcases c3S_mem hx with h | h | h | h
  · subst h; decide
  · exact hph0 x h
  · exact hph1 x h
  · subst h; decide

theorem c3S_no_sentP : ∀ x ∈ c3S, isSentP x = false := by
  intro x hx
  have hph0 : ∀ y ∈ placeholder 0, isSentP y = false := by decide
  have hph1 : ∀ y ∈ placeholder 1, isSentP y = false := by decide
  rcases c3S_mem hx with h | h | h | h
  · subst h; decide
  · exact hph0 x h
  · exact hph1 x h
  · subst h; decide

theorem c3S_ne_nil : c3S ≠ [] :=
  List.cons_ne_nil ' ' _

theorem c3S_no_two_spaces : hasTwoSpaces c3S = false := by
  have hP0c : placeholder 0 = 'H' :: lc "TMLTAG0ENDTAG" := by decide
  have hrep : List.replicate 4494 'a' = 'a' :: List.replicate 4493 'a' := by
    rw [show (4494 : Nat) = 4493 + 1 by norm_num, List.replicate_succ]
  have h3 : hasTwoSpaces (' ' :: (placeholder 1 ++ [' '])) = false := by
    decide
  have h2 : hasTwoSpaces (List.replicate 4494 'a' ++
      ' ' :: (placeholder 1 ++ [' '])) = false := by
    apply hasTwoSpaces_mid_append
    · intro x hx
      rw [List.eq_of_mem_replicate hx]
      decide
    · exact h3
  have h1 : hasTwoSpaces (' ' :: (List.replicate 4494 'a' ++
      ' ' :: (placeholder 1 ++ [' ']))) = false := by
    rw [hrep] at h2 ⊢
    rw [List.cons_append] at h2 ⊢
    exact hasTwoSpaces_cons (by simp) h2
  have h0 : hasTwoSpaces (placeholder 0 ++
      ' ' :: (List.replicate 4494 'a' ++
        ' ' :: (placeholder 1 ++ [' ']))) = false := by
    apply hasTwoSpaces_mid_append
    · have hall : ∀ y ∈ placeholder 0, ¬ y = ' ' := by decide
      exact hall
    · exact h1
  show hasTwoSpaces (' ' :: (placeholder 0 ++
    ' ' :: (List.replicate 4494 'a' ++
      ' ' :: (placeholder 1 ++ [' '])))) = false
  rw [hP0c, List.cons_append] at h0 ⊢
  exact hasTwoSpaces_cons (by simp) h0

theorem c3Input_len : strLen c3Input = 4511 := by
  rw [strLen_eq]
  simp only [c3Input, List.length_append, List.length_replicate]
  rw [show (lc "<strong>").length = 8 from rfl,
    show (lc "</strong>").length = 9 from rfl]

theorem c3S_len : strLen c3S = 4526 := by
  rw [strLen_eq]
  simp only [c3S, List.length_cons, List.length_append,
    List.length_replicate]
  rw [show (placeholder 0).length = 14 from rfl,
    show (placeholder 1).length = 14 from rfl]
  simp only [List.length_nil]

theorem c3Input_cons :
    c3Input = '<' :: (lc "strong>" ++
      (List.replicate 4494 'a' ++ lc "</strong>")) := rfl

theorem c3_strip : stripHasContent c3Input = true := by
  unfold stripHasContent
  rw [c3Input_cons, List.any_cons]
  rw [Bool.or_eq_true]
  exact Or.inl (by decide)

theorem c3_shield : shieldGo (strLen c3Input) c3Input 0 =
    (c3S, [(placeholder 0, lc "<strong>"),
      (placeholder 1, lc "</strong>")]) := by
  have hclose : shieldGo 16 (lc "</strong>") 1 =
      (' ' :: (placeholder 1 ++ [' ']),
        [(placeholder 1, lc "</strong>")]) := by decide
  have hmt : matchTag ('<' :: (lc "strong>" ++
      (List.replicate 4494 'a' ++ lc "</strong>"))) =
      some (lc "<strong>", List.replicate 4494 'a' ++ lc "</strong>") := rfl
  rw [c3Input_len, c3Input_cons]
  rw [show (4511 : Nat) = 4510 + 1 from by norm_num]
  rw [shieldGo_step_match hmt]
  rw [show (4510 : Nat) = (List.replicate 4494 'a').length + 16 from by
    rw [List.length_replicate]]
  rw [shieldGo_skip (List.replicate 4494 'a') 16 1 (lc "</strong>")
    (fun x hx => by rw [List.eq_of_mem_replicate hx]; decide)]
  rw [hclose]
  rfl

theorem c3Input_ne_nil : c3Input ≠ [] := by
  rw [c3Input_cons]
  exact List.cons_ne_nil '<' _

theorem c3_pre : preprocess_for_translation c3Input =
    (c3S, [(placeholder 0, lc "<strong>"),
      (placeholder 1, lc "</strong>")]) := by
  unfold preprocess_for_translation
  rw [if_neg c3Input_ne_nil]
  simp only [c3_shield]
  rw [collapseSpaces_id c3S_no_two_spaces]

theorem c3_preS : preprocess_for_translation c3S = (c3S, []) := by
  unfold preprocess_for_translation
  rw [if_neg c3S_ne_nil]
  simp only [shieldGo_noLt (strLen c3S) c3S 0 c3S_no_lt]
  rw [collapseSpaces_id c3S_no_two_spaces]

theorem c3_restore : restore_html_tags [] c3S = c3S := by
  unfold restore_html_tags
  rw [if_neg c3S_ne_nil]
  show collapseSpaces
    (fixAfterClose [lc "em", lc "b", lc "i", lc "u", lc "span"] restoreCls
      (fixBeforeOpen restoreCls [lc "em", lc "b", lc "i", lc "u", lc "span"]
        (fixAfterClose [lc "strong"] restoreCls
          (fixBeforeOpen restoreCls [lc "strong"]
            (List.foldl
              (fun (acc : List Char) (pr : List Char × List Char) =>
                replaceL pr.1 pr.2 acc) c3S []))))) =
      c3S
  rw [List.foldl_nil]
  rw [fixBeforeOpen_id c3S_no_lt, fixAfterClose_id c3S_no_lt,
    fixBeforeOpen_id c3S_no_lt, fixAfterClose_id c3S_no_lt]
  exact collapseSpaces_id c3S_no_two_spaces

theorem c3_chunk : processChunk passEngine 0 c3S = (c3S, 1) := by
  unfold processChunk
  simp only [c3_preS]
  show (restore_html_tags [] c3S, 0 + 1) = (c3S, 1)
  rw [c3_restore]

theorem c3_split : splitSentences c3S = [c3S] := by
  unfold splitSentences
  rw [strLen_eq]
  rw [sentSplitGo_noP c3S.length [] c3S (le_refl _) c3S_no_sentP]
  rfl

theorem c3_chunks : buildChunks [c3S] [] = [c3S] := by
  show (if strLen ([] ++ c3S) < 4500 then buildChunks [] ([] ++ c3S)
    else if ([] : List Char) = [] then buildChunks [] c3S
    else [] :: buildChunks [] c3S) = [c3S]
  rw [List.nil_append, c3S_len]
  rw [if_neg (by omega), if_pos rfl]
  show (if c3S = [] then [] else [c3S]) = [c3S]
  rw [if_neg c3S_ne_nil]

theorem c3_long : translate_long_text passEngine 0 c3S = (c3S, 1) := by
  unfold translate_long_text
  rw [c3_split, c3_chunks]
  simp only [List.foldl_cons, List.foldl_nil]
  simp only [c3_chunk]
  rfl

theorem c3_eval : translate_with_google passEngine 0 c3Input =
    (c3S, 1, []) := by
  unfold translate_with_google
  rw [if_neg (show ¬ ¬ (stripHasContent c3Input = true) from by
    rw [c3_strip]; simp)]
  simp only [c3_pre]
  unfold max_retries
  rw [show (3 : Nat) = 2 + 1 from rfl]
  unfold attemptLoop
  rw [if_pos (show 4500 < strLen c3S from by rw [c3S_len]; omega)]
  simp only [c3_long]

/-- C3 (code bug): on a text whose shielded form exceeds the chunking
threshold — one `<strong>` pair around 4494 characters of prose — the
chunked path with a passthrough engine returns text that still contains
the placeholder `HTMLTAG0ENDTAG` and no longer contains `<strong>`:
`_translate_long_text` re-shields each chunk, which overwrites
`self.html_replacements` with the chunk's own (empty) map, so the outer
map from the shielding step that produced the chunk's input is never
used to unshield. -/
theorem c3_chunk_unshield_bug :
    containsL (placeholder 0)
      ((translate_with_google passEngine 0 c3Input).1) = true ∧
    containsL (lc "<strong>")
      ((translate_with_google passEngine 0 c3Input).1) = false := by
  rw [c3_eval]
  constructor
  · show containsL (placeholder 0)
      (' ' :: (placeholder 0 ++ ' ' ::
        (List.replicate 4494 'a' ++ ' ' :: (placeholder 1 ++ [' '])))) = true
    apply containsL_tail
    exact containsL_here (by decide)
  · exact containsL_false_of_mem
      (show '<' ∈ lc "<strong>" from by decide) c3S_no_lt

theorem containsL_prepend {pat t : List Char}
    (h : containsL pat t = true) :
    ∀ (u : List Char), containsL pat (u ++ t) = true := by
  intro u
  induction u with
  | nil => exact h
  | cons c u2 ih => exact containsL_tail ih

theorem containsL_of_isPrefixOf {pat s : List Char}
    (h : pat.isPrefixOf s = true) : containsL pat s = true := by
  cases s with
  | nil =>
    cases pat with
    | nil => rfl
    | cons p ps => simp [List.isPrefixOf] at h
  | cons c rest =>
    simp only [containsL]
    rw [h]
    simp

theorem containsL_strip_lower {p : Char} {pat : List Char}
    (hp : isLowerLet p = false) :
    ∀ (run w : List Char), (∀ x ∈ run, isLowerLet x = true) →
      containsL (p :: pat) (run ++ w) = true →
      containsL (p :: pat) w = true := by
  intro run
  induction run with
  | nil => intro w _ h; exact h
  | cons x run2 ih =>
    intro w hrun h
    simp only [List.cons_append, containsL, List.append_eq] at h
    cases hpre : (p :: pat).isPrefixOf (x :: (run2 ++ w)) with
    | true =>
      simp only [List.isPrefixOf, Bool.and_eq_true, beq_iff_eq] at hpre
      rw [← hpre.1] at hrun
      rw [hrun p (List.mem_cons_self p run2)] at hp
      cases hp
    | false =>
      rw [hpre] at h
      simp only [Bool.false_eq_true, if_false, ite_false] at h
      exact ih w (fun y hy => hrun y (List.mem_cons_of_mem x hy)) h

theorem containsL_to_dropSp {t0 : Char} {tok1 : List Char}
    (h0 : t0 ≠ ' ') :
    ∀ (rest : List Char), containsL (t0 :: tok1) rest = true →
      containsL (t0 :: tok1) (rest.dropWhile (fun x => x = ' ')) = true := by
  intro rest
  induction rest with
  | nil => intro h; exact h
  | cons c r2 ih =>
    intro h
    rw [List.dropWhile_cons]
    by_cases hc : c = ' '
    · rw [if_pos (by simpa using hc)]
      apply ih
      simp only [containsL] at h
      cases hpre : (t0 :: tok1).isPrefixOf (c :: r2) with
      | true =>
        simp only [List.isPrefixOf, Bool.and_eq_true, beq_iff_eq] at hpre
        rw [← hpre.1] at hc
        exact absurd hc h0
      | false =>
        rw [hpre] at h
        simpa using h
    · rw [if_neg (by simpa using hc)]
      exact h

theorem containsL_suffix_false {pat : List Char} {c : Char} {rest : List Char}
    (h : containsL pat (c :: rest) = false) : containsL pat rest = false := by
  simp only [containsL] at h
  cases hpre : pat.isPrefixOf (c :: rest) with
  | true => rw [hpre] at h; simp at h
  | false => rw [hpre] at h; simpa using h

theorem takeWhile_all_append {p : Char → Bool} :
    ∀ (a b : List Char), (∀ x ∈ a, p x = true) →
      (a ++ b).takeWhile p = a ++ b.takeWhile p ∧
        (a ++ b).dropWhile p = b.dropWhile p := by
  intro a
  induction a with
  | nil => intro b _; exact ⟨rfl, rfl⟩
  | cons x a2 ih =>
    intro b h
    have hx := h x (List.mem_cons_self x a2)
    have ih2 := ih b (fun y hy => h y (List.mem_cons_of_mem x hy))
    constructor
    · rw [List.cons_append, List.takeWhile_cons, if_pos hx, ih2.1,
        List.cons_append]
    · rw [List.cons_append, List.dropWhile_cons, if_pos hx, ih2.2]

theorem isPrefixOf_ne_head {c d : Char} {ys w : List Char} (hc : c ≠ d) :
    (c :: ys).isPrefixOf (d :: w) = false := by
  simp only [List.isPrefixOf, Bool.and_eq_false_iff]
  left
  simpa using hc

theorem protectedAfter_false {d : Char} {w : List Char}
    (hU : d ≠ 'U') (hS : d ≠ 'S') (hR : d ≠ 'R') (hM : d ≠ 'M')
    (hC : d ≠ 'C') (hL : d ≠ 'L') :
    protectedAfter (d :: w) = false := by
  show ((lc "Up").isPrefixOf (d :: w) || ((lc "Sync").isPrefixOf (d :: w) ||
    ((lc "Render").isPrefixOf (d :: w) || ((lc "Max").isPrefixOf (d :: w) ||
      ((lc "CAD").isPrefixOf (d :: w) ||
        ((lc "Live").isPrefixOf (d :: w) || false)))))) = false
  rw [show (lc "Up").isPrefixOf (d :: w) = false from
      isPrefixOf_ne_head (fun hh => hU hh.symm),
    show (lc "Sync").isPrefixOf (d :: w) = false from
      isPrefixOf_ne_head (fun hh => hS hh.symm),
    show (lc "Render").isPrefixOf (d :: w) = false from
      isPrefixOf_ne_head (fun hh => hR hh.symm),
    show (lc "Max").isPrefixOf (d :: w) = false from
      isPrefixOf_ne_head (fun hh => hM hh.symm),
    show (lc "CAD").isPrefixOf (d :: w) = false from
      isPrefixOf_ne_head (fun hh => hC hh.symm),
    show (lc "Live").isPrefixOf (d :: w) = false from
      isPrefixOf_ne_head (fun hh => hL hh.symm)]
  rfl

theorem camel_fire {run : List Char} {u d : Char} {w : List Char} {f : Nat}
    (hrun : ∀ x ∈ run, isLowerLet x = true) (h2 : 2 ≤ run.length)
    (hu : isUpperLet u = true)
    (hd : protectedAfter (d :: w) = false) :
    camelSplitGo (f + 1) (run ++ u :: d :: w) =
      run ++ ' ' :: u :: camelSplitGo f (d :: w) := by
  have hul : isLowerLet u = false := (upper_facts hu).1
  cases run with
  | nil => simp at h2
  | cons r1 run2 =>
    have hr1 : isLowerLet r1 = true := hrun r1 (List.mem_cons_self r1 run2)
    have hdw : (r1 :: (run2 ++ u :: d :: w)).dropWhile isLowerLet =
        u :: d :: w := by
      rw [← List.cons_append,
        (takeWhile_all_append (r1 :: run2) (u :: d :: w) hrun).2]
      rw [List.dropWhile_cons, if_neg (by simp [hul])]
    have htw : (r1 :: (run2 ++ u :: d :: w)).takeWhile isLowerLet =
        r1 :: run2 := by
      rw [← List.cons_append,
        (takeWhile_all_append (r1 :: run2) (u :: d :: w) hrun).1]
      rw [List.takeWhile_cons, if_neg (by simp [hul]), List.append_nil]
    rw [List.cons_append]
    simp only [camelSplitGo, hr1, if_true]
    rw [hdw, htw]
    show (if 2 ≤ (r1 :: run2).length ∧ isUpperLet u = true ∧
        ¬ protectedAfter (d :: w) = true then
        (r1 :: run2) ++ ' ' :: u :: camelSplitGo f (d :: w)
      else (r1 :: run2) ++ camelSplitGo f (u :: d :: w)) =
      (r1 :: run2) ++ ' ' :: u :: camelSplitGo f (d :: w)
    rw [if_pos ⟨h2, hu, by simp [hd]⟩]

theorem camel_keep_lower {tl : List Char}
    (htl : ∀ x ∈ tl, isLowerLet x = true) :
    ∀ (fuel : Nat) (t : List Char),
      ∃ X, camelSplitGo fuel (tl ++ t) = tl ++ X := by
  intro fuel t
  cases fuel with
  | zero => exact ⟨t, rfl⟩
  | succ f =>
    cases tl with
    | nil => exact ⟨camelSplitGo (f + 1) t, rfl⟩
    | cons x tl2 =>
      have hx : isLowerLet x = true := htl x (List.mem_cons_self x tl2)
      have htd := takeWhile_all_append (x :: tl2) t htl
      have hdw : (x :: (tl2 ++ t)).dropWhile isLowerLet =
          t.dropWhile isLowerLet := by
        rw [← List.cons_append]; exact htd.2
      have htw : (x :: (tl2 ++ t)).takeWhile isLowerLet =
          (x :: tl2) ++ t.takeWhile isLowerLet := by
        rw [← List.cons_append]; exact htd.1
      rw [List.cons_append]
      simp only [camelSplitGo, hx, if_true]
      rw [hdw, htw]
      cases hdd : t.dropWhile isLowerLet with
      | nil =>
        exact ⟨t.takeWhile isLowerLet, rfl⟩
      | cons u2 rest3 =>
        show (∃ X,
          (if 2 ≤ ((x :: tl2) ++ t.takeWhile isLowerLet).length ∧
              isUpperLet u2 = true ∧ ¬ protectedAfter rest3 = true then
            ((x :: tl2) ++ t.takeWhile isLowerLet) ++
              ' ' :: u2 :: camelSplitGo f rest3
          else ((x :: tl2) ++ t.takeWhile isLowerLet) ++
            camelSplitGo f (u2 :: rest3)) = (x :: tl2) ++ X)
        by_cases hcond : 2 ≤ ((x :: tl2) ++ t.takeWhile isLowerLet).length ∧
            isUpperLet u2 = true ∧ ¬ protectedAfter rest3 = true
        · rw [if_pos hcond]
          exact ⟨t.takeWhile isLowerLet ++
            ' ' :: u2 :: camelSplitGo f rest3, by rw [List.append_assoc]⟩
        · rw [if_neg hcond]
          exact ⟨t.takeWhile isLowerLet ++ camelSplitGo f (u2 :: rest3),
            by rw [List.append_assoc]⟩

theorem camel_keep_nonlower {tl : List Char}
    (htl : ∀ x ∈ tl, isLowerLet x = false) :
    ∀ (fuel : Nat) (t : List Char), tl.length ≤ fuel →
      ∃ X, camelSplitGo fuel (tl ++ t) = tl ++ X := by
  induction tl with
  | nil => intro fuel t _; exact ⟨camelSplitGo fuel t, rfl⟩
  | cons x tl2 ih =>
    intro fuel t hlen
    cases fuel with
    | zero => simp at hlen
    | succ f =>
      have hx : isLowerLet x = false := htl x (List.mem_cons_self x tl2)
      rw [List.cons_append]
      simp only [camelSplitGo, hx, Bool.false_eq_true, if_false, ite_false]
      obtain ⟨X, hX⟩ := ih (fun y hy => htl y (List.mem_cons_of_mem x hy))
        f t (by simp only [List.length_cons] at hlen; omega)
      exact ⟨X, by rw [hX]; rfl⟩

theorem camel_occ_head {run : List Char} {u d : Char} {tl' : List Char}
    (hrun : ∀ x ∈ run, isLowerLet x = true) (h2 : 2 ≤ run.length)
    (hu : isUpperLet u = true)
    (hdU : d ≠ 'U') (hdS : d ≠ 'S') (hdR : d ≠ 'R') (hdM : d ≠ 'M')
    (hdC : d ≠ 'C') (hdL : d ≠ 'L')
    (htl : (∀ x ∈ d :: tl', isLowerLet x = true) ∨
      (∀ x ∈ d :: tl', isLowerLet x = false)) :
    ∀ (F : Nat) (v : List Char),
      (run ++ u :: d :: (tl' ++ v)).length ≤ F →
      ∃ X, camelSplitGo F (run ++ u :: d :: (tl' ++ v)) =
        (run ++ ' ' :: u :: d :: tl') ++ X := by
  intro F v hF
  cases F with
  | zero =>
    exfalso
    cases run with
    | nil => simp at h2
    | cons r1 run2 => simp at hF
  | succ g =>
    rw [show camelSplitGo (g + 1) (run ++ u :: d :: (tl' ++ v)) =
        run ++ ' ' :: u :: camelSplitGo g (d :: (tl' ++ v)) from
      camel_fire hrun h2 hu
        (protectedAfter_false hdU hdS hdR hdM hdC hdL)]
    have hkeep : ∃ X, camelSplitGo g ((d :: tl') ++ v) = (d :: tl') ++ X := by
      rcases htl with htl | htl
      · exact camel_keep_lower htl g v
      · apply camel_keep_nonlower htl g v
        simp only [List.length_append, List.length_cons] at hF ⊢
        omega
    obtain ⟨X, hX⟩ := hkeep
    rw [List.cons_append] at hX
    rw [hX]
    exact ⟨X, by simp [List.append_assoc]⟩

theorem camel_token {c0 : Char} {run : List Char} {u d : Char}
    {tl' : List Char}
    (hc0 : isLowerLet c0 = false)
    (hrun : ∀ x ∈ run, isLowerLet x = true) (h2 : 2 ≤ run.length)
    (hu : isUpperLet u = true)
    (hdU : d ≠ 'U') (hdS : d ≠ 'S') (hdR : d ≠ 'R') (hdM : d ≠ 'M')
    (hdC : d ≠ 'C') (hdL : d ≠ 'L')
    (htl : (∀ x ∈ d :: tl', isLowerLet x = true) ∨
      (∀ x ∈ d :: tl', isLowerLet x = false)) :
    ∀ (fuel : Nat) (s : List Char), s.length ≤ fuel →
      containsL (c0 :: (run ++ u :: d :: tl')) s = true →
      containsL (c0 :: (run ++ ' ' :: u :: d :: tl'))
        (camelSplitGo fuel s) = true := by
  intro fuel
  induction fuel with
  | zero =>
    intro s hs hc
    have hnil : s = [] := List.length_eq_zero.mp (Nat.le_zero.mp hs)
    subst hnil
    simp [containsL] at hc
  | succ f ih =>
    intro s hs hc
    cases s with
    | nil => simp [containsL] at hc
    | cons c rest =>
      have hrlen : rest.length ≤ f := by
        simp only [List.length_cons] at hs; omega
      cases hcl : isLowerLet c with
      | false =>
        simp only [camelSplitGo, hcl, Bool.false_eq_true, if_false,
          ite_false]
        simp only [containsL] at hc
        cases hpre : (c0 :: (run ++ u :: d :: tl')).isPrefixOf (c :: rest)
          with
        | true =>
          have hp2 := List.isPrefixOf_iff_prefix.mp hpre
          obtain ⟨v, hv⟩ := hp2
          rw [List.cons_append] at hv
          injection hv with hv1 hv2
          subst hv1
          have hrest : rest = run ++ u :: d :: (tl' ++ v) := by
            rw [← hv2, List.append_assoc]
            rfl
          obtain ⟨X, hX⟩ := camel_occ_head hrun h2 hu hdU hdS hdR hdM hdC
            hdL htl f v (by rw [← hrest]; exact hrlen)
          rw [hrest, hX]
          apply containsL_of_isPrefixOf
          simp only [List.isPrefixOf_iff_prefix]
          exact ⟨X, by rw [List.cons_append]⟩
        | false =>
          rw [hpre] at hc
          simp only [Bool.false_eq_true, if_false, ite_false] at hc
          exact containsL_tail (ih rest hrlen hc)
      | true =>
        have hsplit : (c :: rest) =
            (c :: rest).takeWhile isLowerLet ++
              (c :: rest).dropWhile isLowerLet :=
          (List.takeWhile_append_dropWhile _ _).symm
        have hc2 : containsL (c0 :: (run ++ u :: d :: tl'))
            ((c :: rest).dropWhile isLowerLet) = true := by
          apply containsL_strip_lower hc0 ((c :: rest).takeWhile isLowerLet)
          · intro y hy
            exact List.mem_takeWhile_imp hy
          · rw [← hsplit]
            exact hc
        have hdlen : ((c :: rest).dropWhile isLowerLet).length ≤ f := by
          rw [List.dropWhile_cons, if_pos hcl]
          exact le_trans (dropWhile_len_le isLowerLet rest) hrlen
        simp only [camelSplitGo, hcl, if_true]
        generalize hdd : (c :: rest).dropWhile isLowerLet = dd at hc2 hdlen ⊢
        cases dd with
        | nil => simp [containsL] at hc2
        | cons u0 rest3 =>
          show containsL (c0 :: (run ++ ' ' :: u :: d :: tl'))
            (if 2 ≤ ((c :: rest).takeWhile isLowerLet).length ∧
                isUpperLet u0 = true ∧ ¬ protectedAfter rest3 = true then
              (c :: rest).takeWhile isLowerLet ++
                ' ' :: u0 :: camelSplitGo f rest3
            else (c :: rest).takeWhile isLowerLet ++
              camelSplitGo f (u0 :: rest3)) = true
          have hr3len : rest3.length ≤ f := by
            simp only [List.length_cons] at hdlen; omega
          by_cases hcond : 2 ≤ ((c :: rest).takeWhile isLowerLet).length ∧
              isUpperLet u0 = true ∧ ¬ protectedAfter rest3 = true
          · rw [if_pos hcond]
            simp only [containsL] at hc2
            cases hpre2 : (c0 :: (run ++ u :: d :: tl')).isPrefixOf
              (u0 :: rest3) with
            | true =>
              have hp2 := List.isPrefixOf_iff_prefix.mp hpre2
              obtain ⟨v, hv⟩ := hp2
              rw [List.cons_append] at hv
              injection hv with hv1 hv2
              subst hv1
              have hrest3 : rest3 = run ++ u :: d :: (tl' ++ v) := by
                rw [← hv2, List.append_assoc]
                rfl
              obtain ⟨X, hX⟩ := camel_occ_head hrun h2 hu hdU hdS hdR hdM
                hdC hdL htl f v (by rw [← hrest3]; exact hr3len)
              rw [hrest3, hX]
              rw [List.append_cons ((c :: rest).takeWhile isLowerLet) ' ']
              apply containsL_prepend
              apply containsL_of_isPrefixOf
              simp only [List.isPrefixOf_iff_prefix]
              exact ⟨X, by rw [List.cons_append]⟩
            | false =>
              rw [hpre2] at hc2
              simp only [Bool.false_eq_true, if_false, ite_false] at hc2
              have hrec := ih rest3 hr3len hc2
              rw [List.append_cons ((c :: rest).takeWhile isLowerLet) ' ',
                List.append_cons _ u0]
              exact containsL_prepend hrec _
          · rw [if_neg hcond]
            have hrec := ih (u0 :: rest3) (by
              simp only [List.length_cons]
              simp only [List.length_cons] at hdlen
              omega) hc2
            exact containsL_prepend hrec _

theorem collapse_prefix :
    ∀ (pat : List Char), hasTwoSpaces pat = false →
      pat.getLast? ≠ some ' ' →
      ∀ (fuel : Nat) (t : List Char),
        ∃ X, collapseSpacesGo fuel (pat ++ t) = pat ++ X := by
  intro pat
  induction pat with
  | nil => intro _ _ fuel t; exact ⟨collapseSpacesGo fuel t, rfl⟩
  | cons c pat1 ih =>
    intro hsp hlast fuel t
    cases fuel with
    | zero => exact ⟨t, rfl⟩
    | succ f =>
      cases pat1 with
      | nil =>
        have hc : c ≠ ' ' := by
          intro hh
          subst hh
          exact hlast rfl
        cases t with
        | nil => exact ⟨[], rfl⟩
        | cons dt t2 =>
          show ∃ X, collapseSpacesGo (f + 1) (c :: dt :: t2) = [c] ++ X
          simp only [collapseSpacesGo]
          rw [if_neg (by tauto)]
          exact ⟨collapseSpacesGo f (dt :: t2), rfl⟩
      | cons c2 pat2 =>
        have hsp2 : hasTwoSpaces (c2 :: pat2) = false := by
          simp only [hasTwoSpaces, Bool.or_eq_false_iff] at hsp
          exact hsp.2
        have hns : ¬ (c = ' ' ∧ c2 = ' ') := by
          simp only [hasTwoSpaces, Bool.or_eq_false_iff,
            Bool.and_eq_false_iff, decide_eq_false_iff_not] at hsp
          tauto
        have hlast2 : (c2 :: pat2).getLast? ≠ some ' ' := by
          rw [List.getLast?_cons_cons] at hlast
          exact hlast
        obtain ⟨X, hX⟩ := ih hsp2 hlast2 f t
        show ∃ X, collapseSpacesGo (f + 1)
          (c :: ((c2 :: pat2) ++ t)) = (c :: c2 :: pat2) ++ X
        rw [List.cons_append]
        simp only [collapseSpacesGo]
        rw [if_neg hns]
        rw [← List.cons_append, hX]
        exact ⟨X, rfl⟩

theorem collapse_pres {t0 : Char} {tok1 : List Char}
    (h0 : t0 ≠ ' ')
    (hsp : hasTwoSpaces (t0 :: tok1) = false)
    (hlast : (t0 :: tok1).getLast? ≠ some ' ') :
    ∀ (fuel : Nat) (s : List Char),
      containsL (t0 :: tok1) s = true →
      containsL (t0 :: tok1) (collapseSpacesGo fuel s) = true := by
  intro fuel
  induction fuel with
  | zero => intro s h; exact h
  | succ f ih =>
    intro s h
    match s with
    | [] => exact h
    | [c] => exact h
    | c :: d :: rest =>
      simp only [containsL] at h
      cases hpre : (t0 :: tok1).isPrefixOf (c :: d :: rest) with
      | true =>
        have hp2 := List.isPrefixOf_iff_prefix.mp hpre
        obtain ⟨v, hv⟩ := hp2
        rw [← hv]
        obtain ⟨X, hX⟩ := collapse_prefix (t0 :: tok1) hsp hlast (f + 1) v
        rw [hX]
        exact containsL_here (by simp)
      | false =>
        rw [hpre] at h
        simp only [Bool.false_eq_true, if_false, ite_false] at h ⊢
        simp only [collapseSpacesGo]
        by_cases hcd : c = ' ' ∧ d = ' '
        · rw [if_pos hcd]
          have h2 : containsL (t0 :: tok1) rest = true := by
            cases hpre2 : (t0 :: tok1).isPrefixOf (d :: rest) with
            | true =>
              simp only [List.isPrefixOf, Bool.and_eq_true,
                beq_iff_eq] at hpre2
              rw [← hpre2.1] at hcd
              exact absurd hcd.2 h0
            | false =>
              rw [hpre2] at h
              simpa using h
          apply containsL_tail
          apply ih
          exact containsL_to_dropSp h0 rest h2
        · rw [if_neg hcd]
          exact containsL_tail (ih (d :: rest) h)

theorem replaceL_self {pat : List Char} :
    ∀ (fuel : Nat) (s : List Char), replaceLGo pat pat fuel s = s := by
  intro fuel
  induction fuel with
  | zero => intro s; rfl
  | succ f ih =>
    intro s
    cases s with
    | nil => rfl
    | cons c rest =>
      simp only [replaceLGo]
      split
      · rename_i hcon
        obtain ⟨v, hv⟩ := List.isPrefixOf_iff_prefix.mp hcon.2
        rw [← hv, List.drop_left, ih v]
      · rw [ih rest]

theorem replaceL_gives {pat rep : List Char} (hpat : pat ≠ [])
    (hrep : rep ≠ []) :
    ∀ (fuel : Nat) (s : List Char), s.length ≤ fuel →
      containsL pat s = true →
      containsL rep (replaceLGo pat rep fuel s) = true := by
  intro fuel
  induction fuel with
  | zero =>
    intro s hs h
    have hnil : s = [] := List.length_eq_zero.mp (Nat.le_zero.mp hs)
    subst hnil
    cases pat with
    | nil => exact absurd rfl hpat
    | cons p ps => simp [containsL] at h
  | succ f ih =>
    intro s hs h
    cases s with
    | nil =>
      cases pat with
      | nil => exact absurd rfl hpat
      | cons p ps => simp [containsL] at h
    | cons c rest =>
      simp only [replaceLGo]
      split
      · exact containsL_here hrep
      · rename_i hncon
        simp only [containsL] at h
        cases hpre : pat.isPrefixOf (c :: rest) with
        | true => exact absurd ⟨hpat, hpre⟩ hncon
        | false =>
          rw [hpre] at h
          simp only [Bool.false_eq_true, if_false, ite_false] at h
          apply containsL_tail
          apply ih rest (by simp only [List.length_cons] at hs; omega) h

theorem prefix_dichotomy {l1 l2 L : List Char}
    (h1 : l1.isPrefixOf L = true) (h2 : l2.isPrefixOf L = true) :
    l1.isPrefixOf l2 = true ∨ l2.isPrefixOf l1 = true := by
  have p1 := List.isPrefixOf_iff_prefix.mp h1
  have p2 := List.isPrefixOf_iff_prefix.mp h2
  rcases List.prefix_or_prefix_of_prefix p1 p2 with h | h
  · exact Or.inl (List.isPrefixOf_iff_prefix.mpr h)
  · exact Or.inr (List.isPrefixOf_iff_prefix.mpr h)

theorem containsL_skip_pat {tok : List Char} :
    ∀ (pat w : List Char),
      (∀ dt ∈ pat.tails, dt ≠ [] →
        dt.isPrefixOf tok = false ∧ tok.isPrefixOf dt = false) →
      containsL tok (pat ++ w) = true → containsL tok w = true := by
  intro pat
  induction pat with
  | nil => intro w _ h; exact h
  | cons p pat1 ih =>
    intro w hsuf h
    rw [List.cons_append] at h
    simp only [containsL] at h
    cases hpre : tok.isPrefixOf (p :: (pat1 ++ w)) with
    | true =>
      exfalso
      have hfull : (p :: pat1).isPrefixOf ((p :: pat1) ++ w) = true :=
        List.isPrefixOf_iff_prefix.mpr (List.prefix_append (p :: pat1) w)
      rw [List.cons_append] at hfull
      have hmem : (p :: pat1) ∈ (p :: pat1).tails := by
        rw [List.tails_cons]
        exact List.mem_cons_self _ _
      rcases prefix_dichotomy hpre hfull with hd | hd
      · exact absurd hd (by
          rw [(hsuf (p :: pat1) hmem (by simp)).2]
          simp)
      · exact absurd hd (by
          rw [(hsuf (p :: pat1) hmem (by simp)).1]
          simp)
    | false =>
      rw [hpre] at h
      simp only [Bool.false_eq_true, if_false, ite_false] at h
      apply ih w ?hs h
      case hs =>
        intro dt hdt hne
        apply hsuf dt ?hm hne
        case hm =>
          rw [List.tails_cons]
          exact List.mem_cons_of_mem _ hdt

theorem replaceL_keep_prefix {pat rep : List Char} :
    ∀ (tok : List Char), containsL pat tok = false →
      (∀ dt ∈ tok.tails, dt ≠ [] → dt.isPrefixOf pat = false) →
      ∀ (fuel : Nat) (w : List Char),
        ∃ X, replaceLGo pat rep fuel (tok ++ w) = tok ++ X := by
  intro tok
  induction tok with
  | nil => intro _ _ fuel w; exact ⟨replaceLGo pat rep fuel w, rfl⟩
  | cons c tok1 ih =>
    intro hC2 htoksuf fuel w
    cases fuel with
    | zero => exact ⟨w, rfl⟩
    | succ f =>
      have hp : pat.isPrefixOf (c :: (tok1 ++ w)) = false := by
        cases hp2 : pat.isPrefixOf (c :: (tok1 ++ w)) with
        | false => rfl
        | true =>
          exfalso
          have hfull : (c :: tok1).isPrefixOf ((c :: tok1) ++ w) = true :=
            List.isPrefixOf_iff_prefix.mpr (List.prefix_append (c :: tok1) w)
          rw [List.cons_append] at hfull
          have hmem : (c :: tok1) ∈ (c :: tok1).tails := by
            rw [List.tails_cons]
            exact List.mem_cons_self _ _
          rcases prefix_dichotomy hp2 hfull with hd | hd
          · have := containsL_of_isPrefixOf hd
            rw [this] at hC2
            cases hC2
          · rw [htoksuf (c :: tok1) hmem (by simp)] at hd
            cases hd
      obtain ⟨X, hX⟩ := ih (containsL_suffix_false hC2)
        (fun dt hdt hne => htoksuf dt
          (by rw [List.tails_cons]; exact List.mem_cons_of_mem _ hdt) hne)
        f w
      refine ⟨X, ?e⟩
      case e =>
        rw [List.cons_append]
        simp only [replaceLGo]
        rw [if_neg (by simp [hp])]
        rw [hX]
        rfl

theorem replaceL_pres {pat rep tok : List Char} (hpat : pat ≠ [])
    (hC2 : containsL pat tok = false)
    (hsuf : ∀ dt ∈ pat.tails, dt ≠ [] →
      dt.isPrefixOf tok = false ∧ tok.isPrefixOf dt = false)
    (htoksuf : ∀ dt ∈ tok.tails, dt ≠ [] → dt.isPrefixOf pat = false) :
    ∀ (fuel : Nat) (s : List Char), s.length ≤ fuel →
      containsL tok s = true →
      containsL tok (replaceLGo pat rep fuel s) = true := by
  intro fuel
  induction fuel with
  | zero =>
    intro s hs h
    have hnil : s = [] := List.length_eq_zero.mp (Nat.le_zero.mp hs)
    subst hnil
    exact h
  | succ f ih =>
    intro s hs h
    cases s with
    | nil => exact h
    | cons c rest =>
      simp only [containsL] at h
      cases hpre : tok.isPrefixOf (c :: rest) with
      | true =>
        obtain ⟨v, hv⟩ := List.isPrefixOf_iff_prefix.mp hpre
        rw [← hv]
        obtain ⟨X, hX⟩ := replaceL_keep_prefix tok hC2 htoksuf (f + 1) v
        rw [hX]
        exact containsL_of_isPrefixOf
          (List.isPrefixOf_iff_prefix.mpr (List.prefix_append tok X))
      | false =>
        rw [hpre] at h
        simp only [Bool.false_eq_true, if_false, ite_false] at h
        simp only [replaceLGo]
        split
        · rename_i hcon
          obtain ⟨v, hv⟩ := List.isPrefixOf_iff_prefix.mp hcon.2
          have hsv : containsL tok v = true := by
            apply containsL_skip_pat pat v hsuf
            rw [hv]
            exact containsL_tail h
          rw [← hv, List.drop_left]
          apply containsL_prepend
          apply ih v ?lv hsv
          case lv =>
            have hlen : (pat ++ v).length ≤ f + 1 := by rw [hv]; exact hs
            simp only [List.length_append] at hlen
            cases pat with
            | nil => exact absurd rfl hpat
            | cons p2 ps2 =>
              simp only [List.length_cons] at hlen
              omega
        · apply containsL_tail
          exact ih rest (by simp only [List.length_cons] at hs; omega) h

theorem replaceL_self_eq {pat : List Char} (s : List Char) :
    replaceL pat pat s = s :=
  replaceL_self (strLen s) s

theorem camel_sketchup {s : List Char}
    (h : containsL (lc "SketchUp") s = true) :
    containsL (lc "Sketch Up") (camelSplit s) = true := by
  have h2 : containsL ('S' :: (lc "ketch" ++ 'U' :: 'p' :: [])) s = true := by
    rw [show ('S' :: (lc "ketch" ++ 'U' :: 'p' :: [])) = lc "SketchUp" from
      by decide]
    exact h
  rw [show lc "Sketch Up" =
    'S' :: (lc "ketch" ++ ' ' :: 'U' :: 'p' :: []) from by decide]
  unfold camelSplit
  exact camel_token (by decide) (by decide) (by decide) (by decide)
    (by decide) (by decide) (by decide) (by decide) (by decide) (by decide)
    (Or.inl (by decide)) (strLen s) s (by rw [strLen_eq]) h2

theorem camel_livesync {s : List Char}
    (h : containsL (lc "LiveSync") s = true) :
    containsL (lc "Live Sync") (camelSplit s) = true := by
  have h2 : containsL ('L' :: (lc "ive" ++ 'S' :: 'y' :: lc "nc")) s =
      true := by
    rw [show ('L' :: (lc "ive" ++ 'S' :: 'y' :: lc "nc")) = lc "LiveSync"
      from by decide]
    exact h
  rw [show lc "Live Sync" =
    'L' :: (lc "ive" ++ ' ' :: 'S' :: 'y' :: lc "nc") from by decide]
  unfold camelSplit
  exact camel_token (by decide) (by decide) (by decide) (by decide)
    (by decide) (by decide) (by decide) (by decide) (by decide) (by decide)
    (Or.inl (by decide)) (strLen s) s (by rw [strLen_eq]) h2

theorem camel_archicad {s : List Char}
    (h : containsL (lc "ArchiCAD") s = true) :
    containsL (lc "Archi CAD") (camelSplit s) = true := by
  have h2 : containsL ('A' :: (lc "rchi" ++ 'C' :: 'A' :: lc "D")) s =
      true := by
    rw [show ('A' :: (lc "rchi" ++ 'C' :: 'A' :: lc "D")) = lc "ArchiCAD"
      from by decide]
    exact h
  rw [show lc "Archi CAD" =
    'A' :: (lc "rchi" ++ ' ' :: 'C' :: 'A' :: lc "D") from by decide]
  unfold camelSplit
  exact camel_token (by decide) (by decide) (by decide) (by decide)
    (by decide) (by decide) (by decide) (by decide) (by decide) (by decide)
    (Or.inr (by decide)) (strLen s) s (by rw [strLen_eq]) h2

theorem collapse_sketchup {v : List Char}
    (h : containsL (lc "Sketch Up") v = true) :
    containsL (lc "Sketch Up") (collapseSpaces v) = true := by
  rw [show lc "Sketch Up" = 'S' :: lc "ketch Up" from by decide] at h ⊢
  unfold collapseSpaces
  exact collapse_pres (by decide) (by decide) (by decide) (strLen v) v h

theorem collapse_livesync {v : List Char}
    (h : containsL (lc "Live Sync") v = true) :
    containsL (lc "Live Sync") (collapseSpaces v) = true := by
  rw [show lc "Live Sync" = 'L' :: lc "ive Sync" from by decide] at h ⊢
  unfold collapseSpaces
  exact collapse_pres (by decide) (by decide) (by decide) (strLen v) v h

theorem collapse_archicad {v : List Char}
    (h : containsL (lc "Archi CAD") v = true) :
    containsL (lc "Archi CAD") (collapseSpaces v) = true := by
  rw [show lc "Archi CAD" = 'A' :: lc "rchi CAD" from by decide] at h ⊢
  unfold collapseSpaces
  exact collapse_pres (by decide) (by decide) (by decide) (strLen v) v h

theorem brand_fold_sketchup {v : List Char}
    (h : containsL (lc "Sketch Up") v = true) :
    containsL (lc "SketchUp")
      (brand_fixes.foldl
        (fun acc pr => replaceL pr.1.data pr.2.data acc) v) = true := by
  simp only [brand_fixes, List.foldl_cons, List.foldl_nil]
  show containsL (lc "SketchUp")
    (replaceL (lc "archi cad") (lc "ArchiCAD")
      (replaceL (lc "Archi CAD") (lc "ArchiCAD")
        (replaceL (lc "3ds Max") (lc "3ds Max")
          (replaceL (lc "D5 Render") (lc "D5 Render")
            (replaceL (lc "live sync") (lc "LiveSync")
              (replaceL (lc "Live Sync") (lc "LiveSync")
                (replaceL (lc "sketch up") (lc "SketchUp")
                  (replaceL (lc "Sketch Up") (lc "SketchUp") v)))))))) = true
  rw [replaceL_self_eq, replaceL_self_eq]
  have h1 : containsL (lc "SketchUp")
      (replaceL (lc "Sketch Up") (lc "SketchUp") v) = true := by
    unfold replaceL
    exact replaceL_gives (by decide) (by decide) (strLen v) v
      (by rw [strLen_eq]) h
  generalize (replaceL (lc "Sketch Up") (lc "SketchUp") v) = w1 at h1 ⊢
  have h2 : containsL (lc "SketchUp")
      (replaceL (lc "sketch up") (lc "SketchUp") w1) = true := by
    unfold replaceL
    exact replaceL_pres (by decide) (by decide) (by decide) (by decide)
      (strLen w1) w1 (by rw [strLen_eq]) h1
  generalize (replaceL (lc "sketch up") (lc "SketchUp") w1) = w2 at h2 ⊢
  have h3 : containsL (lc "SketchUp")
      (replaceL (lc "Live Sync") (lc "LiveSync") w2) = true := by
    unfold replaceL
    exact replaceL_pres (by decide) (by decide) (by decide) (by decide)
      (strLen w2) w2 (by rw [strLen_eq]) h2
  generalize (replaceL (lc "Live Sync") (lc "LiveSync") w2) = w3 at h3 ⊢
  have h4 : containsL (lc "SketchUp")
      (replaceL (lc "live sync") (lc "LiveSync") w3) = true := by
    unfold replaceL
    exact replaceL_pres (by decide) (by decide) (by decide) (by decide)
      (strLen w3) w3 (by rw [strLen_eq]) h3
  generalize (replaceL (lc "live sync") (lc "LiveSync") w3) = w4 at h4 ⊢
  have h5 : containsL (lc "SketchUp")
      (replaceL (lc "Archi CAD") (lc "ArchiCAD") w4) = true := by
    unfold replaceL
    exact replaceL_pres (by decide) (by decide) (by decide) (by decide)
      (strLen w4) w4 (by rw [strLen_eq]) h4
  generalize (replaceL (lc "Archi CAD") (lc "ArchiCAD") w4) = w5 at h5 ⊢
  unfold replaceL
  exact replaceL_pres (by decide) (by decide) (by decide) (by decide)
    (strLen w5) w5 (by rw [strLen_eq]) h5

theorem brand_fold_livesync {v : List Char}
    (h : containsL (lc "Live Sync") v = true) :
    containsL (lc "LiveSync")
      (brand_fixes.foldl
        (fun acc pr => replaceL pr.1.data pr.2.data acc) v) = true := by
  simp only [brand_fixes, List.foldl_cons, List.foldl_nil]
  show containsL (lc "LiveSync")
    (replaceL (lc "archi cad") (lc "ArchiCAD")
      (replaceL (lc "Archi CAD") (lc "ArchiCAD")
        (replaceL (lc "3ds Max") (lc "3ds Max")
          (replaceL (lc "D5 Render") (lc "D5 Render")
            (replaceL (lc "live sync") (lc "LiveSync")
              (replaceL (lc "Live Sync") (lc "LiveSync")
                (replaceL (lc "sketch up") (lc "SketchUp")
                  (replaceL (lc "Sketch Up") (lc "SketchUp") v)))))))) = true
  rw [replaceL_self_eq, replaceL_self_eq]
  have h1 : containsL (lc "Live Sync")
      (replaceL (lc "Sketch Up") (lc "SketchUp") v) = true := by
    unfold replaceL
    exact replaceL_pres (by decide) (by decide) (by decide) (by decide)
      (strLen v) v (by rw [strLen_eq]) h
  generalize (replaceL (lc "Sketch Up") (lc "SketchUp") v) = w1 at h1 ⊢
  have h2 : containsL (lc "Live Sync")
      (replaceL (lc "sketch up") (lc "SketchUp") w1) = true := by
    unfold replaceL
    exact replaceL_pres (by decide) (by decide) (by decide) (by decide)
      (strLen w1) w1 (by rw [strLen_eq]) h1
  generalize (replaceL (lc "sketch up") (lc "SketchUp") w1) = w2 at h2 ⊢
  have h3 : containsL (lc "LiveSync")
      (replaceL (lc "Live Sync") (lc "LiveSync") w2) = true := by
    unfold replaceL
    exact replaceL_gives (by decide) (by decide) (strLen w2) w2
      (by rw [strLen_eq]) h2
  generalize (replaceL (lc "Live Sync") (lc "LiveSync") w2) = w3 at h3 ⊢
  have h4 : containsL (lc "LiveSync")
      (replaceL (lc "live sync") (lc "LiveSync") w3) = true := by
    unfold replaceL
    exact replaceL_pres (by decide) (by decide) (by decide) (by decide)
      (strLen w3) w3 (by rw [strLen_eq]) h3
  generalize (replaceL (lc "live sync") (lc "LiveSync") w3) = w4 at h4 ⊢
  have h5 : containsL (lc "LiveSync")
      (replaceL (lc "Archi CAD") (lc "ArchiCAD") w4) = true := by
    unfold replaceL
    exact replaceL_pres (by decide) (by decide) (by decide) (by decide)
      (strLen w4) w4 (by rw [strLen_eq]) h4
  generalize (replaceL (lc "Archi CAD") (lc "ArchiCAD") w4) = w5 at h5 ⊢
  unfold replaceL
  exact replaceL_pres (by decide) (by decide) (by decide) (by decide)
    (strLen w5) w5 (by rw [strLen_eq]) h5

theorem brand_fold_archicad {v : List Char}
    (h : containsL (lc "Archi CAD") v = true) :
    containsL (lc "ArchiCAD")
      (brand_fixes.foldl
        (fun acc pr => replaceL pr.1.data pr.2.data acc) v) = true := by
  simp only [brand_fixes, List.foldl_cons, List.foldl_nil]
  show containsL (lc "ArchiCAD")
    (replaceL (lc "archi cad") (lc "ArchiCAD")
      (replaceL (lc "Archi CAD") (lc "ArchiCAD")
        (replaceL (lc "3ds Max") (lc "3ds Max")
          (replaceL (lc "D5 Render") (lc "D5 Render")
            (replaceL (lc "live sync") (lc "LiveSync")
              (replaceL (lc "Live Sync") (lc "LiveSync")
                (replaceL (lc "sketch up") (lc "SketchUp")
                  (replaceL (lc "Sketch Up") (lc "SketchUp") v)))))))) = true
  rw [replaceL_self_eq, replaceL_self_eq]
  have h1 : containsL (lc "Archi CAD")
      (replaceL (lc "Sketch Up") (lc "SketchUp") v) = true := by
    unfold replaceL
    exact replaceL_pres (by decide) (by decide) (by decide) (by decide)
      (strLen v) v (by rw [strLen_eq]) h
  generalize (replaceL (lc "Sketch Up") (lc "SketchUp") v) = w1 at h1 ⊢
  have h2 : containsL (lc "Archi CAD")
      (replaceL (lc "sketch up") (lc "SketchUp") w1) = true := by
    unfold replaceL
    exact replaceL_pres (by decide) (by decide) (by decide) (by decide)
      (strLen w1) w1 (by rw [strLen_eq]) h1
  generalize (replaceL (lc "sketch up") (lc "SketchUp") w1) = w2 at h2 ⊢
  have h3 : containsL (lc "Archi CAD")
      (replaceL (lc "Live Sync") (lc "LiveSync") w2) = true := by
    unfold replaceL
    exact replaceL_pres (by decide) (by decide) (by decide) (by decide)
      (strLen w2) w2 (by rw [strLen_eq]) h2
  generalize (replaceL (lc "Live Sync") (lc "LiveSync") w2) = w3 at h3 ⊢
  have h4 : containsL (lc "Archi CAD")
      (replaceL (lc "live sync") (lc "LiveSync") w3) = true := by
    unfold replaceL
    exact replaceL_pres (by decide) (by decide) (by decide) (by decide)
      (strLen w3) w3 (by rw [strLen_eq]) h3
  generalize (replaceL (lc "live sync") (lc "LiveSync") w3) = w4 at h4 ⊢
  have h5 : containsL (lc "ArchiCAD")
      (replaceL (lc "Archi CAD") (lc "ArchiCAD") w4) = true := by
    unfold replaceL
    exact replaceL_gives (by decide) (by decide) (strLen w4) w4
      (by rw [strLen_eq]) h4
  generalize (replaceL (lc "Archi CAD") (lc "ArchiCAD") w4) = w5 at h5 ⊢
  unfold replaceL
  exact replaceL_pres (by decide) (by decide) (by decide) (by decide)
    (strLen w5) w5 (by rw [strLen_eq]) h5

set_option maxRecDepth 4000 in
/-- C8 (counterexample): the camel-case-split pass itself DOES split the
protected brand token: on the input "SketchUp" it produces "Sketch Up",
because the negative lookahead is placed after the uppercase letter and
therefore tests "p...", not "Up...". -/
theorem c8_brand_cex :
    camelSplit (lc "SketchUp") = lc "Sketch Up" ∧
      containsL (lc "SketchUp") (camelSplit (lc "SketchUp")) = false := by
  decide

/-- C8 (amended): for markup-free input (no `<`), every occurrence of
SketchUp, LiveSync or ArchiCAD present in the input of
`fix_html_spacing` is present in its output: the camel-case pass splits
the token ("Sketch Up", "Live Sync", "Archi CAD"), and the phase-7
`brand_fixes` replacements re-join it. -/
theorem c8_brand_amended (s : List Char)
    (h : containsL (lc "<") s = false) :
    (containsL (lc "SketchUp") s = true →
      containsL (lc "SketchUp") (fix_html_spacing s) = true) ∧
    (containsL (lc "LiveSync") s = true →
      containsL (lc "LiveSync") (fix_html_spacing s) = true) ∧
    (containsL (lc "ArchiCAD") s = true →
      containsL (lc "ArchiCAD") (fix_html_spacing s) = true) := by
  by_cases hnil : s = []
  · subst hnil
    exact ⟨fun hq => absurd hq (by decide), fun hq => absurd hq (by decide),
      fun hq => absurd hq (by decide)⟩
  · have hlt : ∀ x ∈ s, x ≠ '<' :=
      containsL_single_false (show containsL ['<'] s = false from h)
    have hfix : fix_html_spacing s =
        brand_fixes.foldl (fun acc pr => replaceL pr.1.data pr.2.data acc)
          (collapseSpaces (camelSplit s)) := by
      unfold fix_html_spacing
      rw [if_neg hnil]
      show brand_fixes.foldl
        (fun acc pr => replaceL pr.1.data pr.2.data acc)
        (collapseSpaces (camelSplit (czech_words.foldl
          (fun acc w => tagNames.foldl
            (fun acc2 tag => fixWordTag w.data [tag] acc2) acc)
          (fixBeforeOpen punctCls tagNames (tagNames.foldl
            (fun acc tag => fixAfterClose [tag] (fun c => isWordCh c) acc)
            (tagNames.foldl
              (fun acc tag => fixBeforeOpen phase1Cls [tag] acc) s)))))) = _
      rw [foldl_fixBeforeOpen_id tagNames s hlt,
        foldl_fixAfterClose_id tagNames s hlt,
        fixBeforeOpen_id hlt,
        foldl_wordTag_id czech_words s hlt]
    refine ⟨fun hin => ?s1, fun hin => ?s2, fun hin => ?s3⟩
    case s1 =>
      rw [hfix]
      exact brand_fold_sketchup (collapse_sketchup (camel_sketchup hin))
    case s2 =>
      rw [hfix]
      exact brand_fold_livesync (collapse_livesync (camel_livesync hin))
    case s3 =>
      rw [hfix]
      exact brand_fold_archicad (collapse_archicad (camel_archicad hin))

set_option maxRecDepth 4000 in
/-- Witness for C8 (amended) at a concrete markup-free input containing
all three brand tokens glued mid-sentence. -/
theorem c8_brand_amended_witness :
    containsL (lc "<") (lc "naSketchUp a LiveSync aArchiCAD") = false ∧
      containsL (lc "SketchUp")
        (fix_html_spacing (lc "naSketchUp a LiveSync aArchiCAD")) = true ∧
      containsL (lc "LiveSync")
        (fix_html_spacing (lc "naSketchUp a LiveSync aArchiCAD")) = true ∧
      containsL (lc "ArchiCAD")
        (fix_html_spacing (lc "naSketchUp a LiveSync aArchiCAD")) = true :=
  ⟨by decide,
    (c8_brand_amended (lc "naSketchUp a LiveSync aArchiCAD")
      (by decide)).1 (by decide),
    (c8_brand_amended (lc "naSketchUp a LiveSync aArchiCAD")
      (by decide)).2.1 (by decide),
    (c8_brand_amended (lc "naSketchUp a LiveSync aArchiCAD")
      (by decide)).2.2 (by decide)⟩
